import Mathlib

/-!
Verification of `weeklycontainerreport.py` (weekly container-inventory
extraction pipeline).  The Python source is shallowly embedded below:
Python `str` values are Lean `String`s (with the character-level helper
functions defined on `List Char`), JSON-shaped Python values are the
inductive `JVal`, Python dicts are association lists with first-match
lookup, and the unbounded `while` loops of the source are given an explicit
fuel argument (the fuel is always provably sufficient where it matters).
A function that can raise an uncaught Python exception is embedded as an
`Option`- (or result-) valued function, `none` marking the crash.
-/

/-! ## Character-level helpers (Python `str` primitives) -/

/-- The characters Python's `str.strip()` removes (the ASCII whitespace
subset relevant here). -/
def pyWS (c : Char) : Bool :=
  c = ' ' || c = '\t' || c = '\n' || c = '\r' || c = '\x0b' || c = '\x0c'

/-- `str.lstrip` on a character list. -/
def lstripL (l : List Char) : List Char := l.dropWhile pyWS

/-- `str.rstrip` on a character list. -/
def rstripL (l : List Char) : List Char := (lstripL l.reverse).reverse

/-- `str.strip` on a character list. -/
def stripL (l : List Char) : List Char := rstripL (lstripL l)

/-- `str.replace("\n", " ")` (single-character pattern) on a character list. -/
def replNL (l : List Char) : List Char :=
  l.map (fun c => if c = '\n' then ' ' else c)

/-- `str.replace("\r", " ")` on a character list. -/
def replCR (l : List Char) : List Char :=
  l.map (fun c => if c = '\r' then ' ' else c)

/-- `s.replace("\n", " ").replace("\r", " ")` as used by `sanitize_cell`. -/
def replNLCR (l : List Char) : List Char := replCR (replNL l)

/-- Split a character list at every occurrence of `c` (Python
`str.split(c)`; in particular the empty list yields `[[]]`). -/
def splitOnCharL (sep : Char) : List Char → List (List Char)
  | [] => [[]]
  | c :: rest =>
    let r := splitOnCharL sep rest
    if c = sep then [] :: r
    else
      match r with
      | [] => [[c]]
      | h :: t => (c :: h) :: t

/-- Decidable "character occurs in the list". -/
def hasChar (c : Char) (l : List Char) : Bool := l.any (fun d => d = c)

theorem splitOnCharL_ne_nil (sep : Char) (l : List Char) :
    splitOnCharL sep l ≠ [] := by
  induction l with
  | nil => simp [splitOnCharL]
  | cons c rest ih =>
    simp only [splitOnCharL]
    split
    · simp
    · cases h : splitOnCharL sep rest with
      | nil => simp
      | cons a t => simp

/-! ## A JSON-shaped Python value -/

/-- JSON-shaped Python values as fetched from the API: `None`, booleans,
integers, strings, lists and dicts (association lists, keys unique the way
Python dicts are). -/
inductive JVal where
  | null
  | bool (b : Bool)
  | num (n : Int)
  | str (s : String)
  | list (xs : List JVal)
  | obj (kvs : List (String × JVal))

/-- Python `dict.get(k)` (first-match association-list lookup;
`none` = key absent, i.e. Python `None`). -/
def pyLookup (kvs : List (String × JVal)) (k : String) : Option JVal :=
  match kvs with
  | [] => none
  | (k', v) :: rest => if k' = k then some v else pyLookup rest k

/-- Python `dict.get(k, d)` with an explicit default. -/
def pyLookupD (kvs : List (String × JVal)) (k : String) (d : JVal) : JVal :=
  match pyLookup kvs k with
  | some v => v
  | none => d

/-- Python truthiness of a `JVal` (`bool(v)()`): `None`, `False`, `0`, `""`,
`[]` and `{ }` are falsy. -/
def pyTruthy : JVal → Bool
  | .null => false
  | .bool b => b
  | .num n => !(n == 0)
  | .str s => !(s == "")
  | .list xs => !xs.isEmpty
  | .obj kvs => !kvs.isEmpty

/-! ## Python `str()` / `repr()` / `json.dumps` of a `JVal`

Only the scalar cases of `str()` are ever reached with nontrivial content in
the source (the structured cases feed `sanitize_cell` only when a record
carries a structured field where a scalar is expected); they are embedded
anyway so that every function below is total the way the Python is. -/

/-- The single-quote character (used by Python `repr` of strings). -/
def squoteC : Char := Char.ofNat 39

/-- Python `repr` escaping for characters inside a single-quoted string
(backslash, quote, newline, carriage return, tab). -/
def pyReprEsc (c : Char) : List Char :=
  if c = '\\' then ['\\', '\\']
  else if c = squoteC then ['\\', squoteC]
  else if c = '\n' then ['\\', 'n']
  else if c = '\r' then ['\\', 'r']
  else if c = '\t' then ['\\', 't']
  else [c]

/-- Python `repr` of a string value (single-quoted, escaped). -/
def pyReprStr (s : String) : String :=
  String.mk ([squoteC] ++ (s.data.flatMap pyReprEsc) ++ [squoteC])

mutual
/-- Python `repr` of a `JVal` (what `str()` prints for nested values). -/
def pyRepr : JVal → String
  | .null => "None"
  | .bool true => "True"
  | .bool false => "False"
  | .num n => toString n
  | .str s => pyReprStr s
  | .list xs => "[" ++ pyReprL xs ++ "]"
  | .obj kvs => "\x7b" ++ pyReprO kvs ++ "\x7d"
def pyReprL : List JVal → String
  | [] => ""
  | [v] => pyRepr v
  | v :: rest => pyRepr v ++ ", " ++ pyReprL rest
def pyReprO : List (String × JVal) → String
  | [] => ""
  | [(k, v)] => pyReprStr k ++ ": " ++ pyRepr v
  | (k, v) :: rest => pyReprStr k ++ ": " ++ pyRepr v ++ ", " ++ pyReprO rest
end

/-- Python `str()` of a `JVal`. -/
def pyStr : JVal → String
  | .null => "None"
  | .bool true => "True"
  | .bool false => "False"
  | .num n => toString n
  | .str s => s
  | .list xs => pyRepr (.list xs)
  | .obj kvs => pyRepr (.obj kvs)

/-- `json.dumps` escaping for characters inside a double-quoted string. -/
def jsonEsc (c : Char) : List Char :=
  if c = '\\' then ['\\', '\\']
  else if c = '"' then ['\\', '"']
  else if c = '\n' then ['\\', 'n']
  else if c = '\r' then ['\\', 'r']
  else if c = '\t' then ['\\', 't']
  else [c]

/-- `json.dumps` of a string value (double-quoted, escaped). -/
def jsonDumpsStr (s : String) : String :=
  String.mk ('"' :: (s.data.flatMap jsonEsc) ++ ['"'])

mutual
/-- `json.dumps(v, ensure_ascii=False)` with the default separators
`", "` and `": "`, as called at the end of `get_nested_value`. -/
def jsonDumps : JVal → String
  | .null => "null"
  | .bool true => "true"
  | .bool false => "false"
  | .num n => toString n
  | .str s => jsonDumpsStr s
  | .list xs => "[" ++ jsonDumpsL xs ++ "]"
  | .obj kvs => "\x7b" ++ jsonDumpsO kvs ++ "\x7d"
def jsonDumpsL : List JVal → String
  | [] => ""
  | [v] => jsonDumps v
  | v :: rest => jsonDumps v ++ ", " ++ jsonDumpsL rest
def jsonDumpsO : List (String × JVal) → String
  | [] => ""
  | [(k, v)] => jsonDumpsStr k ++ ": " ++ jsonDumps v
  | (k, v) :: rest => jsonDumpsStr k ++ ": " ++ jsonDumps v ++ ", " ++ jsonDumpsO rest
end

/-! ## `get_nested_value` (PathResolver, source lines 176-196) -/

/-- Python `int(s)`: optional surrounding whitespace, optional sign, a
nonempty run of digits.  `none` models the `ValueError`. -/
def pyParseInt (s : String) : Option Int :=
  let l := rstripL (lstripL s.data)
  match l with
  | '-' :: ds =>
    if ds ≠ [] ∧ ds.all (fun c => '0' ≤ c ∧ c ≤ '9')
    then some (-(ds.foldl (fun a c => a * 10 + ((c.toNat : Int) - 48)) 0))
    else none
  | '+' :: ds =>
    if ds ≠ [] ∧ ds.all (fun c => '0' ≤ c ∧ c ≤ '9')
    then some (ds.foldl (fun a c => a * 10 + ((c.toNat : Int) - 48)) 0)
    else none
  | ds =>
    if ds ≠ [] ∧ ds.all (fun c => '0' ≤ c ∧ c ≤ '9')
    then some (ds.foldl (fun a c => a * 10 + ((c.toNat : Int) - 48)) 0)
    else none

/-- Python list indexing `xs[i]` (negative indices wrap; `none` models the
`IndexError`). -/
def pyIndex (xs : List JVal) (i : Int) : Option JVal :=
  let j : Int := if i < 0 then i + xs.length else i
  if h : 0 ≤ j ∧ j < xs.length then
    some (xs.get ⟨j.toNat, by omega⟩)
  else none

/-- `path.replace("]", "").split(".")`: the segment list `get_nested_value`
walks. -/
def parseParts (path : String) : List String :=
  (splitOnCharL '.' (path.data.filter (fun c => c ≠ ']'))).map String.mk

/-- The per-segment check `if obj in [None, "null"]: return ""`
(Python `==` against `None` and the string `"null"`). -/
def isNullish (v : JVal) : Bool :=
  match v with
  | .null => true
  | .str s => s == "null"
  | _ => false

/-- One iteration of the segment loop of `get_nested_value` (everything
before the per-segment `None`/`"null"` check).  `none` embeds both the
early `return ""`s (`[`-segment whose target is absent, not a list or out
of bounds) and the exceptions swallowed by the enclosing `try`/`except`
(malformed `[`-segment, unparsable index, `.get` on a non-dict, a wrapped
negative index missing).  A plain segment on a non-dict value sets the
cursor to `""` (the conditional-expression `else ""` of line 189); on a
dict, `none` is the `None` that `dict.get` returns for an absent key. -/
def gnvStep (obj : JVal) (part : String) : Option JVal :=
  if hasChar '[' part.data then
    match (splitOnCharL '[' part.data).map String.mk with
    | [key, idx] =>
      match obj with
      | .obj kvs =>
        match pyParseInt idx with
        | none => none
        | some i =>
          match pyLookupD kvs key (.list []) with
          | .list xs => if i < (xs.length : Int) then pyIndex xs i else none
          | _ => none
      | _ => none
    | _ => none
  else
    match obj with
    | .obj kvs => pyLookup kvs part
    | _ => some (.str "")

/-- The segment-walking loop of `get_nested_value`: apply `gnvStep`, stop
with `""` (i.e. `none`) on a `None`/`"null"` cursor, recurse otherwise. -/
def gnvWalk : JVal → List String → Option JVal
  | obj, [] => some obj
  | obj, part :: rest =>
    match gnvStep obj part with
    | none => none
    | some v => if isNullish v then none else gnvWalk v rest

/-- `get_nested_value(obj, path)` (source lines 176-196): resolve a dotted /
indexed path, returning `""` on any absent key, bad index, `None`/`"null"`
value or internal error, serializing a structured leaf with `json.dumps`
and stringifying a scalar leaf. -/
def get_nested_value (obj : JVal) (path : String) : String :=
  match gnvWalk obj (parseParts path) with
  | none => ""
  | some v =>
    match v with
    | .list xs => jsonDumps (.list xs)
    | .obj kvs => jsonDumps (.obj kvs)
    | v' => pyStr v'

/-! ## `sanitize_cell` (source lines 198-201) -/

/-- `sanitize_cell` restricted to string input (the only shape it receives
from `get_nested_value` and in the final per-row pass): the literals
`"None"`, `"null"` and `""` normalize to `""`; anything else has newlines
and carriage returns replaced by spaces and is stripped. -/
def sanitizeStr (s : String) : String :=
  if s = "None" ∨ s = "null" ∨ s = "" then ""
  else String.mk (stripL (replNLCR s.data))

/-- `sanitize_cell(v)` (source lines 198-201): `None`, the literal strings
`"None"`/`"null"`, the empty list/dict and the empty string all become
`""`; every other value is stringified, `\n`/`\r` replaced by spaces, and
stripped. -/
def sanitize_cell : JVal → String
  | .null => ""
  | .str s => sanitizeStr s
  | .list [] => ""
  | .obj [] => ""
  | v => String.mk (stripL (replNLCR (pyStr v).data))

theorem sanitize_cell_str (s : String) : sanitize_cell (.str s) = sanitizeStr s := rfl

/-! ## Rows as Python dicts (insertion-ordered association lists) -/

/-- A flattened output row: a Python dict from column name to cell string. -/
abbrev Row := List (String × String)

/-- Python dict assignment `r[k] = v`: overwrite in place if the key
exists, else append. -/
def rowSet : Row → String → String → Row
  | [], k, v => [(k, v)]
  | (k', v') :: rest, k, v =>
    if k' = k then (k', v) :: rest else (k', v') :: rowSet rest k v

/-- Python `dict.update`: assign every pair of `s` into `r`, in order. -/
def rowUpdate (r s : Row) : Row := s.foldl (fun r kv => rowSet r kv.1 kv.2) r

/-- The key list of a row (Python dict iteration order). -/
def rowKeys (r : Row) : List String := r.map Prod.fst

/-- Python `r.get(k)` on a row. -/
def rowLookup : Row → String → Option String
  | [], _ => none
  | (k', v) :: rest, k => if k' = k then some v else rowLookup rest k

/-- Python `s.startswith(pre)` via an explicit character-prefix test. -/
def leadEq : List Char → List Char → Bool
  | [], _ => true
  | _ :: _, [] => false
  | p :: ps, c :: cs => p = c && leadEq ps cs

/-- `col.startswith("vuln_")` and friends. -/
def pyStartsWith (s pre : String) : Bool := leadEq pre.data s.data

/-! ## `flatten_vuln` (source lines 211-241) -/

/-- `", ".join(pieces)`. -/
def joinCS : List String → String
  | [] => ""
  | [p] => p
  | p :: rest => p ++ ", " ++ joinCS rest

/-- One iteration of the software loop of `flatten_vuln`: the four cell
values contributed by one software entry (display name falling back from
`name` to `software` on falsy `name`).  `none` embeds the uncaught
`AttributeError` when the entry is not a dict. -/
def entryQuad (sw : JVal) : Option (String × String × String × String) :=
  match sw with
  | .obj skvs =>
    let nameV := pyLookupD skvs "name" .null
    let disp := if pyTruthy nameV then nameV else pyLookupD skvs "software" .null
    some (sanitize_cell disp,
          sanitize_cell (pyLookupD skvs "version" .null),
          sanitize_cell (pyLookupD skvs "fixVersion" .null),
          sanitize_cell (pyLookupD skvs "packagePath" .null))
  | _ => none

/-- The software loop of `flatten_vuln` over a software list. -/
def softwareQuads : List JVal → Option (List (String × String × String × String))
  | [] => some []
  | sw :: rest =>
    match entryQuad sw, softwareQuads rest with
    | some q, some qs => some (q :: qs)
    | _, _ => none

/-- The four accumulated lists `names`, `versions`, `fixes`, `paths` of
`flatten_vuln` (empty when the `software` field is not a list, mirroring
the `isinstance` guard). -/
def softwareLists (swv : JVal) :
    Option (List String × List String × List String × List String) :=
  match swv with
  | .list sws =>
    (softwareQuads sws).map
      (fun qs => (qs.map (·.1), qs.map (·.2.1), qs.map (·.2.2.1), qs.map (·.2.2.2)))
  | _ => some ([], [], [], [])

/-- The nine finding-level column names produced by `flatten_vuln`. -/
def vulnColumns : List String :=
  ["vuln_qid", "vuln_firstFound", "vuln_lastFound", "vuln_typeDetected",
   "vuln_scanTypes", "vuln_software_names", "vuln_software_versions",
   "vuln_software_fixVersions", "vuln_software_packagePaths"]

/-- `flatten_vuln(v)` (source lines 211-241).  `none` embeds the uncaught
exception when the finding (or one of its software entries) is not a
dict. -/
def flatten_vuln (v : JVal) : Option Row :=
  match v with
  | .obj kvs =>
    let scanTypes :=
      match pyLookupD kvs "scanType" (.list []) with
      | .list xs => joinCS ((xs.map sanitize_cell).filter (fun s => !(s == "")))
      | x => sanitize_cell x
    match softwareLists (pyLookupD kvs "software" (.list [])) with
    | some (ns, vs, fs, ps) =>
      some [("vuln_qid", sanitize_cell (pyLookupD kvs "qid" .null)),
            ("vuln_firstFound", sanitize_cell (pyLookupD kvs "firstFound" .null)),
            ("vuln_lastFound", sanitize_cell (pyLookupD kvs "lastFound" .null)),
            ("vuln_typeDetected", sanitize_cell (pyLookupD kvs "typeDetected" .null)),
            ("vuln_scanTypes", scanTypes),
            ("vuln_software_names", joinCS ns),
            ("vuln_software_versions", joinCS vs),
            ("vuln_software_fixVersions", joinCS fs),
            ("vuln_software_packagePaths", joinCS ps)]
    | none => none
  | _ => none

/-! ## `expand_container_to_rows` (source lines 243-264) and the CSV
writer's row filter (source line 277) -/

/-- The default `CSV_COLUMNS` of the source (lines 26-44). -/
def CSV_COLUMNS_default : List String :=
  ["containerId", "uuid", "name", "state", "ipv4", "ipv6",
   "created", "updated", "stateChanged", "riskScore", "qdsSeverity", "maxQdsScore",
   "imageId", "imageSha", "imageUuid", "customerUuid", "privileged", "isRoot",
   "isVulnPropagated", "source", "sensorUuid",
   "host.sensorUuid", "host.hostname", "host.ipAddress",
   "cluster.name", "cluster.uid", "cluster.version",
   "cluster.k8s.pod.name", "cluster.k8s.pod.namespace", "cluster.k8s.pod.uuid",
   "cluster.k8s.pod.controller[0].name", "cluster.k8s.pod.controller[0].type",
   "hostArchitecture",
   "environment", "command", "arguments",
   "vuln_qid", "vuln_firstFound", "vuln_lastFound", "vuln_typeDetected", "vuln_scanTypes",
   "vuln_software_names", "vuln_software_versions", "vuln_software_fixVersions",
   "vuln_software_packagePaths"]

/-- `BASE_CONTAINER_COLUMNS` (source line 203): the non-`vuln_`-prefixed
part of the schema. -/
def baseContainerColumns (cols : List String) : List String :=
  cols.filter (fun c => !(pyStartsWith c "vuln_"))

/-- `build_container_base` (source lines 205-209): resolve and sanitize
every record-level column. -/
def build_container_base (cols : List String) (container : JVal) : Row :=
  (baseContainerColumns cols).foldl
    (fun r c => rowSet r c (sanitizeStr (get_nested_value container c))) []

/-- The `for col in CSV_COLUMNS: if col not in row: row[col] = ""` fill
loop of `expand_container_to_rows`. -/
def fillCols (cols : List String) (r : Row) : Row :=
  cols.foldl (fun r c => if (rowKeys r).contains c then r else r ++ [(c, "")]) r

/-- The final `r[k] = sanitize_cell(r[k])` pass over one row. -/
def finalizeRow (r : Row) : Row := r.map (fun kv => (kv.1, sanitizeStr kv.2))

/-- The per-finding loop of `expand_container_to_rows` (before the final
sanitize pass): one row per finding, in order.  `none` embeds the uncaught
exception out of `flatten_vuln`. -/
def expandVulns (cols : List String) (base : Row) : List JVal → Option (List Row)
  | [] => some []
  | v :: vs =>
    match flatten_vuln v, expandVulns cols base vs with
    | some fr, some rows => some (fillCols cols (rowUpdate base fr) :: rows)
    | _, _ => none

/-- `expand_container_to_rows(container)` (source lines 243-264),
parameterized by the (possibly overridden) column schema.  `none` embeds
the uncaught exception when the container is not a dict or a finding is
malformed. -/
def expand_container_to_rows (cols : List String) (container : JVal) : Option (List Row) :=
  match container with
  | .obj kvs =>
    let base := build_container_base cols container
    match pyLookup kvs "vulnerabilities" with
    | some (.list (v :: vs)) =>
      (expandVulns cols base (v :: vs)).map (fun rows => rows.map finalizeRow)
    | _ => some [finalizeRow (fillCols cols base)]
  | _ => none

/-- The CSV writer's `filtered_row = {col: row.get(col, "") for col in
CSV_COLUMNS}` (source line 277). -/
def filterRowToSchema (cols : List String) (r : Row) : Row :=
  cols.foldl (fun acc c => rowSet acc c ((rowLookup r c).getD "")) []

/-! ## `fetch_paginated_data` (Paginator, source lines 109-142) -/

/-- Python `str.find(c)`: index of the first occurrence, `-1` if absent. -/
def pyFindCharAux : List Char → Char → Nat → Int
  | [], _, _ => -1
  | c' :: rest, c, i => if c' = c then (i : Int) else pyFindCharAux rest c (i + 1)

/-- `s.find(c)`. -/
def pyFindChar (l : List Char) (c : Char) : Int := pyFindCharAux l c 0

/-- Python slicing `s[a:b]` (both bounds given; negative bounds wrap,
out-of-range bounds clamp). -/
def pySlice (l : List Char) (a b : Int) : List Char :=
  let n : Int := l.length
  let a' : Int := if a < 0 then max (n + a) 0 else min a n
  let b' : Int := if b < 0 then max (n + b) 0 else min b n
  (l.take b'.toNat).drop a'.toNat

/-- The fixed page size `LIMIT` (source line 20). -/
def LIMIT : Nat := 250

/-- One HTTP response as the paginator sees it: status code, parsed JSON
body, and the optional `Link` header. -/
structure Response where
  status : Nat
  body : JVal
  link : Option String

/-- One logged request: the URL and the query parameters attached to it
(`params` is `some (filter, LIMIT)` exactly on the first page). -/
structure Req where
  url : String
  params : Option (String × Nat)
deriving DecidableEq

/-- The outcome of `fetch_paginated_data`, together with the full request
log: normal completion (also after a non-200/non-401 `break`, with the
records accumulated so far), `sys.exit(1)` on a 401, an uncaught exception
(body's `data` not a list), or fuel exhaustion of the embedded `while`. -/
inductive FetchResult where
  | ok (records : List JVal) (requests : List Req)
  | exited (code : Nat) (requests : List Req)
  | crashed (requests : List Req)
  | outOfFuel (requests : List Req)

/-- `json_data.get("data", [])` followed by `all_data.extend(...)`:
`none` embeds the uncaught exception when the body is not a dict or the
`data` value is not extendable as a list. -/
def dataOf (body : JVal) : Option (List JVal) :=
  match body with
  | .obj kvs =>
    match pyLookupD kvs "data" (.list []) with
    | .list xs => some xs
    | _ => none
  | _ => none

/-- Python `pat in s` on strings: contiguous-substring containment. -/
def containsSeq (pat : List Char) : List Char → Bool
  | [] => pat.isEmpty
  | c :: rest => leadEq pat (c :: rest) || containsSeq pat rest

/-- The `Link`-header handling at the bottom of the fetch loop: on a header
containing `rel=next`, the text between the first `<` and the first `>`
becomes the next URL; otherwise pagination ends.  The `if link_header`
truthiness test makes an empty header end pagination too. -/
def nextUrl (link : Option String) : Option String :=
  match link with
  | none => none
  | some lh =>
    if lh ≠ "" ∧ containsSeq "rel=next".data lh.data then
      some (String.mk (pySlice lh.data (pyFindChar lh.data '<' + 1) (pyFindChar lh.data '>')))
    else none

/-- The `while url:` loop of `fetch_paginated_data`, with explicit fuel.
`first` records whether this is page 1 (query parameters attached). -/
def fetchGo (server : String → Bool → Response) (filt : String) :
    Nat → String → Bool → List JVal → List Req → FetchResult
  | 0, _, _, _, log => .outOfFuel log
  | fuel + 1, url, first, acc, log =>
    if url = "" then .ok acc log
    else
      let resp := server url first
      let log' := log ++ [⟨url, if first then some (filt, LIMIT) else none⟩]
      if resp.status = 401 then .exited 1 log'
      else if resp.status ≠ 200 then .ok acc log'
      else
        match dataOf resp.body with
        | none => .crashed log'
        | some ds =>
          match nextUrl resp.link with
          | some u => fetchGo server filt fuel u false (acc ++ ds) log'
          | none => .ok (acc ++ ds) log'

/-- `fetch_paginated_data(filter_query)` (source lines 109-142) against an
abstract transport `server` (URL and page-1 flag determine the response),
with fuel bounding the unbounded source loop. -/
def fetch_paginated_data (server : String → Bool → Response)
    (baseUrl filt : String) (fuel : Nat) : FetchResult :=
  fetchGo server filt fuel baseUrl true [] []

/-- The per-window fetch loop of `__main__` (source lines 320-354),
abstracted over the per-window fetch outcome: windows are processed in
order; a `sys.exit` (401) stops the whole run, any other outcome lets the
loop continue with the next window.  Returns the processed windows (with
their outcomes) and whether the run aborted. -/
def runLoop (f : String → FetchResult) : List String → List (String × FetchResult) × Bool
  | [] => ([], false)
  | w :: ws =>
    match f w with
    | .exited c log => ([(w, .exited c log)], true)
    | r =>
      let rest := runLoop f ws
      ((w, r) :: rest.1, rest.2)

/-! ## Calendar arithmetic and the WeekPlanner
(`daterange`, `parse_week_filename`, `get_existing_week_files`,
`generate_all_week_ranges`, source lines 102-174, and the `__main__`
window loop, lines 320-338).

Dates are day numbers relative to 1970-01-01; conversion to and from
calendar triples uses the standard civil-calendar algorithms, embedding
Python's `datetime.date` arithmetic and `strftime`/`strptime`. -/

/-- Gregorian leap year. -/
def isLeapYear (y : Int) : Bool :=
  y % 4 = 0 && (y % 100 ≠ 0 || y % 400 = 0)

/-- Days in a month of a given year (0 for an invalid month number). -/
def daysInMonth (y : Int) (m : Nat) : Nat :=
  match m with
  | 1 => 31 | 2 => if isLeapYear y then 29 else 28
  | 3 => 31 | 4 => 30 | 5 => 31 | 6 => 30 | 7 => 31
  | 8 => 31 | 9 => 30 | 10 => 31 | 11 => 30 | 12 => 31
  | _ => 0

/-- Day number (days since 1970-01-01) of a calendar date. -/
def days_from_civil (y : Int) (m d : Nat) : Int :=
  let y' : Int := if m ≤ 2 then y - 1 else y
  let era : Int := Int.fdiv y' 400
  let yoe : Nat := (y' - era * 400).toNat
  let mp : Nat := if 2 < m then m - 3 else m + 9
  let doy : Nat := (153 * mp + 2) / 5 + d - 1
  let doe : Nat := yoe * 365 + yoe / 4 - yoe / 100 + doy
  era * 146097 + (doe : Int) - 719468

/-- Calendar date `(year, month, day)` of a day number. -/
def civil_from_days (z : Int) : Int × Nat × Nat :=
  let z' : Int := z + 719468
  let era : Int := Int.fdiv z' 146097
  let doe : Nat := (z' - era * 146097).toNat
  let yoe : Nat := (doe - doe / 1460 + doe / 36524 - doe / 146096) / 365
  let y : Int := (yoe : Int) + era * 400
  let doy : Nat := doe - (365 * yoe + yoe / 4 - yoe / 100)
  let mp : Nat := (5 * doy + 2) / 153
  let d : Nat := doy - (153 * mp + 2) / 5 + 1
  let m : Nat := if mp < 10 then mp + 3 else mp - 9
  (if m ≤ 2 then y + 1 else y, m, d)

/-- `strftime("%b")`: the English month abbreviation. -/
def monthAbbrev (m : Nat) : List Char :=
  match m with
  | 1 => "Jan".data | 2 => "Feb".data | 3 => "Mar".data | 4 => "Apr".data
  | 5 => "May".data | 6 => "Jun".data | 7 => "Jul".data | 8 => "Aug".data
  | 9 => "Sep".data | 10 => "Oct".data | 11 => "Nov".data | 12 => "Dec".data
  | _ => []

/-- The character for a decimal digit. -/
def digitChar (d : Nat) : Char := Char.ofNat (48 + d)

/-- Decimal digit characters of a positive number, most significant
first (fuel-based so that the kernel can evaluate it; `fuel ≥ n`
always suffices). -/
def natToDigitsAux : Nat → Nat → List Char
  | 0, _ => []
  | fuel + 1, n => if n = 0 then [] else natToDigitsAux fuel (n / 10) ++ [digitChar (n % 10)]

/-- Python `str(n)` for a natural number. -/
def natDigitsL (n : Nat) : List Char :=
  if n = 0 then ['0'] else natToDigitsAux n n

/-- `strftime("%d")`: the day of the month, zero-padded to two digits. -/
def fmt2 (d : Nat) : List Char :=
  if d < 10 then ['0', digitChar d] else natDigitsL d

/-- `strftime("%b%d")` of a day number. -/
def fmtBD (dayNum : Int) : List Char :=
  let c := civil_from_days dayNum
  monthAbbrev c.2.1 ++ fmt2 c.2.2

/-- The canonical window filename
`f"{week_start.strftime('%b%d')}-{week_end.strftime('%b%d')}.json"`
(source line 172). -/
def weekFilename (ws we : Int) : String :=
  String.mk (fmtBD ws ++ "-".data ++ fmtBD we ++ ".json".data)

/-- Decimal-digit test. -/
def isDigitC (c : Char) : Bool := '0' ≤ c && c ≤ '9'

/-- Numeric value of a run of digit characters. -/
def digVal (l : List Char) : Nat :=
  l.foldl (fun a c => a * 10 + (c.toNat - 48)) 0

/-- Greedily take up to `max` leading digit characters (the regex
fragments `\d{1,2}` / `\d{1,4}` backing `strptime`'s `%d` / `%Y`). -/
def takeDigits : Nat → List Char → List Char × List Char
  | 0, l => ([], l)
  | _ + 1, [] => ([], [])
  | m + 1, c :: rest =>
    if isDigitC c then
      let p := takeDigits m rest
      (c :: p.1, p.2)
    else ([], c :: rest)

/-- ASCII lowercasing (Python's `strptime` matches `%b` case-insensitively). -/
def toLowerC (c : Char) : Char :=
  if 'A' ≤ c && c ≤ 'Z' then Char.ofNat (c.toNat + 32) else c

/-- Match a leading month abbreviation (`%b`), case-insensitively. -/
def matchAbbrev (l : List Char) : Option (Nat × List Char) :=
  let pre := (l.take 3).map toLowerC
  let rest := l.drop 3
  if pre = "jan".data then some (1, rest)
  else if pre = "feb".data then some (2, rest)
  else if pre = "mar".data then some (3, rest)
  else if pre = "apr".data then some (4, rest)
  else if pre = "may".data then some (5, rest)
  else if pre = "jun".data then some (6, rest)
  else if pre = "jul".data then some (7, rest)
  else if pre = "aug".data then some (8, rest)
  else if pre = "sep".data then some (9, rest)
  else if pre = "oct".data then some (10, rest)
  else if pre = "nov".data then some (11, rest)
  else if pre = "dec".data then some (12, rest)
  else none

/-- `datetime.strptime(s, "%b%d%Y")`: month abbreviation, one or two day
digits, one to four year digits, nothing left over, and the resulting
calendar date must exist (this is where `Feb29` of a non-leap year
fails). -/
def strptimeBDY (l : List Char) : Option (Nat × Nat × Nat) :=
  match matchAbbrev l with
  | none => none
  | some (m, r1) =>
    let p1 := takeDigits 2 r1
    if p1.1 = [] then none
    else
      let p2 := takeDigits 4 p1.2
      if p2.1 = [] ∨ p2.2 ≠ [] then none
      else
        let d := digVal p1.1
        let y := digVal p2.1
        if 1 ≤ y ∧ 1 ≤ d ∧ d ≤ daysInMonth (y : Int) m then some (y, m, d) else none

/-- `os.path.splitext(filename)[0]`: strip the extension after the last
dot (names with no dot are returned whole). -/
def stemOf (l : List Char) : List Char :=
  if hasChar '.' l then ((l.reverse.dropWhile (fun c => !(c == '.'))).drop 1).reverse
  else l

/-- `parse_week_filename(filename)` (source lines 144-153), with the
`datetime.now().year` of the run passed explicitly: split the stem on
`"-"` into exactly two parts and parse each as `%b%d` + the current year.
`none` embeds the `except` branch returning `(None, None)`. -/
def parse_week_filename (filename : String) (year : Nat) : Option (Int × Int) :=
  let name := stemOf filename.data
  match splitOnCharL '-' name with
  | [sstr, estr] =>
    match strptimeBDY (sstr ++ natDigitsL year), strptimeBDY (estr ++ natDigitsL year) with
    | some (ys, ms, ds), some (ye, me, de) =>
      some (days_from_civil (ys : Int) ms ds, days_from_civil (ye : Int) me de)
    | _, _ => none
  | _ => none

/-- `get_existing_week_files()` (source lines 155-164) over an explicit
directory listing: the filenames that parse, each with its parsed date
pair (the idempotency set is the key list of this dict). -/
def get_existing_week_files (listing : List String) (year : Nat) :
    List (String × Int × Int) :=
  listing.filterMap (fun f => (parse_week_filename f year).map (fun p => (f, p)))

/-- The `while current < end_date` loop of `daterange` (source lines
102-107), with fuel (one day of range per unit of fuel is always enough). -/
def daterangeAux : Nat → Int → Int → List (Int × Int)
  | 0, _, _ => []
  | fuel + 1, current, e =>
    if current < e then
      (current, min (current + 7) e) :: daterangeAux fuel (min (current + 7) e) e
    else []

/-- `daterange(start_date, end_date)` with the default 7-day step. -/
def daterange (s e : Int) : List (Int × Int) := daterangeAux (e - s).toNat s e

/-- `generate_all_week_ranges(start_date, end_date)` (source lines
166-174): `none` embeds the `sys.exit(1)` on an empty range. -/
def generate_all_week_ranges (s e : Int) : Option (List (Int × Int × String)) :=
  if s ≥ e then none
  else some ((daterange s e).map (fun w => (w.1, w.2, weekFilename w.1 w.2)))

/-- The skip decision of the `__main__` window loop (source lines 320-329)
over a whole run: the filenames of the windows actually fetched (a window
is fetched exactly when its filename is not a key of the
`get_existing_week_files` dict).  `none` embeds the `sys.exit(1)` of an
empty range. -/
def runFetchedFilenames (dir : List String) (year : Nat) (s e : Int) :
    Option (List String) :=
  (generate_all_week_ranges s e).map (fun weeks =>
    let keys := (get_existing_week_files dir year).map (·.1)
    (weeks.filter (fun w => !(keys.contains w.2.2))).map (·.2.2))

/-- The `total_containers` counter of the run (source lines 352-353):
skipped windows contribute nothing; `rc` abstracts the record count a
window's fetch returns. -/
def runTotals (rc : String → Nat) (dir : List String) (year : Nat) (s e : Int) :
    Option Nat :=
  (runFetchedFilenames dir year s e).map (fun fs => (fs.map rc).sum)

/-! ## Window-to-epoch conversion (`__main__`, source lines 331-333)

The source computes
`int(datetime.combine(week_start, datetime.min.time()).timestamp() * 1000)`
plus a fixed offset.  `datetime.combine(...)` is a *naive* datetime, so
`.timestamp()` interprets midnight in the host machine's local time zone:
for a host whose zone is a fixed offset of `utcOffset` seconds east of
UTC, the naive midnight of day number `d` has timestamp
`d * 86400 - utcOffset` seconds.  The host offset is therefore an explicit
parameter of the embedding. -/

/-- Millisecond epoch of the host-local naive midnight of a day number. -/
def localMidnightEpochMs (utcOffset day : Int) : Int :=
  (day * 86400 - utcOffset) * 1000

/-- `epoch_start` (source line 332): local midnight of the window start
plus 10 hours. -/
def epoch_start_ms (utcOffset day : Int) : Int :=
  localMidnightEpochMs utcOffset day + 10 * 60 * 60 * 1000

/-- `epoch_end` (source line 333): local midnight of the window end plus
18 hours. -/
def epoch_end_ms (utcOffset day : Int) : Int :=
  localMidnightEpochMs utcOffset day + 18 * 60 * 60 * 1000

/-! ## Lemmas: window generation (C5) -/

theorem daterangeAux_stop (fuel : Nat) (c e : Int) (h : ¬ c < e) :
    daterangeAux fuel c e = [] := by
  cases fuel with
  | zero => rfl
  | succ f => simp [daterangeAux, h]

theorem daterangeAux_eq_of_le (fuel : Nat) :
    ∀ c e : Int, (e - c).toNat ≤ fuel →
      daterangeAux fuel c e = daterangeAux (e - c).toNat c e := by
  induction fuel using Nat.strong_induction_on with
  | _ fuel ih =>
    intro c e hle
    by_cases hce : c < e
    · have h1 : 1 ≤ (e - c).toNat := by omega
      obtain ⟨k, hk⟩ : ∃ k, (e - c).toNat = k + 1 := ⟨(e - c).toNat - 1, by omega⟩
      obtain ⟨f, hf⟩ : ∃ f, fuel = f + 1 := ⟨fuel - 1, by omega⟩
      subst hf
      rw [hk]
      simp only [daterangeAux, hce, if_pos]
      have hnext : (e - min (c + 7) e).toNat ≤ k := by
        rcases le_or_lt (c + 7) e with h7 | h7
        · rw [min_eq_left h7]; omega
        · rw [min_eq_right (le_of_lt h7)]; omega
      have e1 := ih f (by omega) (min (c + 7) e) e (le_trans hnext (by omega))
      have e2 := ih k (by omega) (min (c + 7) e) e hnext
      rw [e1, e2]
    · rw [daterangeAux_stop fuel c e hce, daterangeAux_stop _ c e hce]

theorem daterange_cons (s e : Int) (h : s < e) :
    daterange s e = (s, min (s + 7) e) :: daterange (min (s + 7) e) e := by
  unfold daterange
  have h1 : 1 ≤ (e - s).toNat := by omega
  obtain ⟨k, hk⟩ : ∃ k, (e - s).toNat = k + 1 := ⟨(e - s).toNat - 1, by omega⟩
  rw [hk]
  simp only [daterangeAux, h, if_pos]
  rw [daterangeAux_eq_of_le k (min (s + 7) e) e]
  rcases le_or_lt (s + 7) e with h7 | h7
  · rw [min_eq_left h7]; omega
  · rw [min_eq_right (le_of_lt h7)]; omega

theorem daterange_stop (s e : Int) (h : ¬ s < e) : daterange s e = [] :=
  daterangeAux_stop _ s e h

theorem daterange_props (n : Nat) :
    ∀ s e : Int, (e - s).toNat = n → s < e →
      (daterange s e ≠ [] ∧
       ((daterange s e).map Prod.fst).head? = some s ∧
       ((daterange s e).map Prod.snd).getLast? = some e ∧
       List.Chain' (fun a b : Int × Int => a.2 = b.1) (daterange s e) ∧
       ∀ w ∈ daterange s e, w.1 < w.2 ∧ w.2 - w.1 ≤ 7) := by
  induction n using Nat.strong_induction_on with
  | _ n ih =>
    intro s e hn hse
    rw [daterange_cons s e hse]
    rcases le_or_lt e (s + 7) with h7 | h7
    · have hmin : min (s + 7) e = e := min_eq_right h7
      rw [hmin, daterange_stop e e (by omega)]
      refine ⟨by simp, by simp, by simp, by simp, ?_⟩
      intro w hw
      simp at hw
      subst hw
      exact ⟨hse, by omega⟩
    · have hmin : min (s + 7) e = s + 7 := min_eq_left (by omega)
      rw [hmin]
      have hlt : ((e - (s + 7)).toNat) < n := by omega
      obtain ⟨hne, hhead, hlast, hchain, hbound⟩ :=
        ih _ hlt (s + 7) e rfl (by omega)
      refine ⟨by simp, by simp, ?_, ?_, ?_⟩
      · obtain ⟨w, t, hwt⟩ : ∃ w t, daterange (s + 7) e = w :: t := by
          cases hdr : daterange (s + 7) e with
          | nil => exact absurd hdr hne
          | cons w t => exact ⟨w, t, rfl⟩
        rw [hwt] at hlast ⊢
        simpa using hlast
      · rw [List.chain'_cons']
        refine ⟨?_, hchain⟩
        intro y hy
        have : ((daterange (s + 7) e).map Prod.fst).head? = (daterange (s + 7) e).head?.map Prod.fst := by
          simp
        rw [this] at hhead
        cases hdr : (daterange (s + 7) e).head? with
        | none => rw [hdr] at hy; simp at hy
        | some w =>
          rw [hdr] at hy hhead
          simp at hy hhead
          subst hy
          simpa using hhead.symm
      · intro w hw
        rcases List.mem_cons.mp hw with hw1 | hw2
        · subst hw1; constructor <;> omega
        · exact hbound w hw2

/-- C5: for `start < end`, window generation partitions `[start, end)`
into chained, non-overlapping windows of 1-7 days (first start = start,
each end = next start, last end = end); it fails (exits) when
`start >= end`; and the concrete range 2024-01-01 to 2024-01-20 yields
exactly the three windows Jan01-Jan08, Jan08-Jan15, Jan15-Jan20. -/
theorem C5_window_partition :
    (∀ s e : Int, s < e →
      ∃ ws, generate_all_week_ranges s e = some ws ∧ ws ≠ [] ∧
        (ws.map (fun w => w.1)).head? = some s ∧
        (ws.map (fun w => w.2.1)).getLast? = some e ∧
        List.Chain' (fun a b => a.2.1 = b.1) ws ∧
        ∀ w ∈ ws, w.1 < w.2.1 ∧ w.2.1 - w.1 ≤ 7) ∧
    (∀ s e : Int, s ≥ e → generate_all_week_ranges s e = none) ∧
    generate_all_week_ranges (days_from_civil 2024 1 1) (days_from_civil 2024 1 20) =
      some [(days_from_civil 2024 1 1, days_from_civil 2024 1 8, "Jan01-Jan08.json"),
            (days_from_civil 2024 1 8, days_from_civil 2024 1 15, "Jan08-Jan15.json"),
            (days_from_civil 2024 1 15, days_from_civil 2024 1 20, "Jan15-Jan20.json")] := by
  refine ⟨?_, ?_, by decide⟩
  · intro s e hse
    obtain ⟨hne, hhead, hlast, hchain, hbound⟩ := daterange_props (e - s).toNat s e rfl hse
    refine ⟨(daterange s e).map (fun w => (w.1, w.2, weekFilename w.1 w.2)), ?_, ?_, ?_, ?_, ?_, ?_⟩
    · simp [generate_all_week_ranges, not_le.mpr hse]
    · simpa using hne
    · rw [List.map_map]
      exact hhead
    · rw [List.map_map]
      simpa using hlast
    · rw [List.chain'_map]
      simpa using hchain
    · intro w hw
      simp only [List.mem_map] at hw
      obtain ⟨a, ha, rfl⟩ := hw
      exact hbound a ha
  · intro s e hse
    simp [generate_all_week_ranges]
    omega

/-- C5 witness: the general part applied at the concrete 2024-01-01 to
2024-01-20 range. -/
theorem C5_window_partition_witness :
    ∃ ws, generate_all_week_ranges (days_from_civil 2024 1 1) (days_from_civil 2024 1 20) = some ws ∧
      ws ≠ [] ∧
      (ws.map (fun w => w.1)).head? = some (days_from_civil 2024 1 1) ∧
      (ws.map (fun w => w.2.1)).getLast? = some (days_from_civil 2024 1 20) ∧
      List.Chain' (fun a b => a.2.1 = b.1) ws ∧
      ∀ w ∈ ws, w.1 < w.2.1 ∧ w.2.1 - w.1 ≤ 7 :=
  C5_window_partition.1 (days_from_civil 2024 1 1) (days_from_civil 2024 1 20) (by decide)

/-- C9: the epoch bounds of a window are derived from the *host-local*
naive midnight (offset by +10h for the start and +18h for the end), so two
hosts whose UTC offsets differ produce different filter bounds for the
same window — concretely, offsets 0 and +3600 s disagree on the
2024-01-01 window — contradicting the host-independence the specification
requires. -/
theorem C9_epoch_bounds_host_dependent :
    (∀ off d : Int, epoch_start_ms off d = localMidnightEpochMs off d + 36000000 ∧
       epoch_end_ms off d = localMidnightEpochMs off d + 64800000) ∧
    (∀ off off' d : Int,
       epoch_start_ms off d - epoch_start_ms off' d = (off' - off) * 1000) ∧
    epoch_start_ms 0 (days_from_civil 2024 1 1) ≠ epoch_start_ms 3600 (days_from_civil 2024 1 1) ∧
    epoch_end_ms 0 (days_from_civil 2024 1 8) ≠ epoch_end_ms 3600 (days_from_civil 2024 1 8) := by
  refine ⟨fun off d => ⟨rfl, rfl⟩, fun off off' d => ?_, by decide, by decide⟩
  simp only [epoch_start_ms, localMidnightEpochMs]
  ring

/-! ## Lemmas: pagination (C3, C4) -/

/-- One page of a pagination scenario: its URL, response body, the `data`
records the body carries, and the `Link` header. -/
structure Page where
  url : String
  body : JVal
  data : List JVal
  link : Option String

/-- `servesChainTo server pages first tail`: the transport serves the
given pages in sequence (the first with page-1 query parameters iff
`first`), every page a 200 whose body's `data` parses to the page's
records, every non-final page's `Link` resolving to the next page's URL,
and the final page's `Link` resolving to `tail` (`none`: pagination ends;
`some u`: the loop will request `u` next). -/
def servesChainTo (server : String → Bool → Response) :
    List Page → Bool → Option String → Prop
  | [], _, _ => True
  | p :: ps, first, tail =>
    p.url ≠ "" ∧
    server p.url first = ⟨200, p.body, p.link⟩ ∧
    dataOf p.body = some p.data ∧
    (match ps with
     | [] => nextUrl p.link = tail
     | q :: _ => nextUrl p.link = some q.url) ∧
    servesChainTo server ps false tail

/-- The request-log entry a page produces. -/
def reqOfPage (filt : String) (first : Bool) (p : Page) : Req :=
  ⟨p.url, if first then some (filt, LIMIT) else none⟩

/-- The request log a served chain produces. -/
def reqsOfPages (filt : String) : List Page → Bool → List Req
  | [], _ => []
  | p :: ps, first => reqOfPage filt first p :: reqsOfPages filt ps false

theorem fetchGo_chain (server : String → Bool → Response) (filt : String) :
    ∀ (ps : List Page) (p : Page) (first : Bool) (tail : Option String)
      (acc : List JVal) (log : List Req) (fuel : Nat),
      servesChainTo server (p :: ps) first tail →
      (p :: ps).length ≤ fuel →
      fetchGo server filt fuel p.url first acc log =
        (match tail with
         | none => FetchResult.ok (acc ++ ((p :: ps).map Page.data).flatten)
             (log ++ reqsOfPages filt (p :: ps) first)
         | some u => fetchGo server filt (fuel - (p :: ps).length) u false
             (acc ++ ((p :: ps).map Page.data).flatten)
             (log ++ reqsOfPages filt (p :: ps) first)) := by
  intro ps
  induction ps with
  | nil =>
    intro p first tail acc log fuel hchain hfuel
    obtain ⟨hurl, hresp, hdata, hlink, -⟩ := hchain
    obtain ⟨f, rfl⟩ : ∃ f, fuel = f + 1 := ⟨fuel - 1, by simp at hfuel; omega⟩
    simp only [fetchGo, if_neg hurl, hresp, hdata]
    norm_num
    cases tail with
    | none =>
      simp only [nextUrl] at hlink ⊢
      rw [hlink]
      simp [reqsOfPages, reqOfPage]
    | some u =>
      rw [hlink]
      simp [reqsOfPages, reqOfPage]
  | cons q qs ih =>
    intro p first tail acc log fuel hchain hfuel
    obtain ⟨hurl, hresp, hdata, hlink, hrest⟩ := hchain
    obtain ⟨f, rfl⟩ : ∃ f, fuel = f + 1 := ⟨fuel - 1, by simp at hfuel; omega⟩
    simp only [fetchGo, if_neg hurl, hresp, hdata]
    norm_num
    rw [hlink]
    dsimp only
    have hf : (q :: qs).length ≤ f := by simp at hfuel ⊢; omega
    have := ih q false tail (acc ++ p.data) (log ++ [reqOfPage filt first p]) f hrest hf
    simp only [reqOfPage] at this
    rw [this]
    cases tail with
    | none => simp [reqsOfPages, reqOfPage]
    | some u =>
      have hlen : f - (q :: qs).length = f + 1 - (p :: q :: qs).length := by
        simp
      rw [hlen]
      simp [reqsOfPages, reqOfPage]

theorem reqsOfPages_length (filt : String) :
    ∀ (ps : List Page) (first : Bool), (reqsOfPages filt ps first).length = ps.length := by
  intro ps
  induction ps with
  | nil => intro first; rfl
  | cons p rest ih => intro first; simp [reqsOfPages, ih]

theorem reqsOfPages_map_url (filt : String) :
    ∀ (ps : List Page) (first : Bool),
      (reqsOfPages filt ps first).map Req.url = ps.map Page.url := by
  intro ps
  induction ps with
  | nil => intro first; rfl
  | cons p rest ih => intro first; simp [reqsOfPages, reqOfPage, ih]

theorem reqsOfPages_params_rest (filt : String) :
    ∀ (ps : List Page), ∀ r ∈ reqsOfPages filt ps false, r.params = none := by
  intro ps
  induction ps with
  | nil => intro r hr; simp [reqsOfPages] at hr
  | cons p rest ih =>
    intro r hr
    rcases List.mem_cons.mp hr with h | h
    · subst h; rfl
    · exact ih r h

/-- C3: against any transport serving a finite chain of 200 pages (each
non-final page's `Link` header carrying `rel=next` and resolving, via the
text between the first angle brackets, to the next page's URL, the final
page carrying none), the paginator returns the order-preserving
concatenation of the pages' `data` lists, making exactly one request per
page: the first carries the filter and `LIMIT` as query parameters, every
later one re-attaches no parameters and hits the extracted URL verbatim. -/
theorem C3_paginator_concatenates (server : String → Bool → Response)
    (filt : String) (pages : List Page) (p : Page) (ps : List Page) (fuel : Nat)
    (hp : pages = p :: ps)
    (hchain : servesChainTo server pages true none)
    (hfuel : pages.length ≤ fuel) :
    fetch_paginated_data server p.url filt fuel =
      FetchResult.ok ((pages.map Page.data).flatten) (reqsOfPages filt pages true) ∧
    (reqsOfPages filt pages true).length = pages.length ∧
    (reqsOfPages filt pages true).map Req.url = pages.map Page.url ∧
    (reqsOfPages filt pages true).head? = some ⟨p.url, some (filt, LIMIT)⟩ ∧
    ∀ r ∈ (reqsOfPages filt pages true).tail, r.params = none := by
  subst hp
  refine ⟨?_, reqsOfPages_length filt _ _, reqsOfPages_map_url filt _ _, rfl, ?_⟩
  · have := fetchGo_chain server filt ps p true none [] [] fuel hchain hfuel
    simpa [fetch_paginated_data] using this
  · intro r hr
    simp only [reqsOfPages, List.tail_cons] at hr
    exact reqsOfPages_params_rest filt ps r hr

/-- A concrete 3-page transport: pages 1 and 2 carry a `rel=next` link,
page 3 does not. -/
def srv3 : String → Bool → Response := fun url _ =>
  if url = "https://gw/csapi/v1.3/containers/list" then
    ⟨200, .obj [("data", .list [.num 1, .num 2])], some "<https://gw/page2>; rel=next"⟩
  else if url = "https://gw/page2" then
    ⟨200, .obj [("data", .list [.num 3])], some "<https://gw/page3>; rel=next"⟩
  else if url = "https://gw/page3" then
    ⟨200, .obj [("data", .list [.num 4, .num 5])], none⟩
  else ⟨404, .obj [], none⟩

/-- The page chain `srv3` serves. -/
def pages3 : List Page :=
  [⟨"https://gw/csapi/v1.3/containers/list", .obj [("data", .list [.num 1, .num 2])],
    [.num 1, .num 2], some "<https://gw/page2>; rel=next"⟩,
   ⟨"https://gw/page2", .obj [("data", .list [.num 3])],
    [.num 3], some "<https://gw/page3>; rel=next"⟩,
   ⟨"https://gw/page3", .obj [("data", .list [.num 4, .num 5])],
    [.num 4, .num 5], none⟩]

/-- C3 witness: the 3-page scenario returns page1 ++ page2 ++ page3 in
order using exactly 3 requests, the first with the filter and limit
attached, the rest parameterless. -/
theorem C3_paginator_concatenates_witness :
    (fetch_paginated_data srv3 "https://gw/csapi/v1.3/containers/list" "f" 3 =
       FetchResult.ok ((pages3.map Page.data).flatten) (reqsOfPages "f" pages3 true) ∧
     (reqsOfPages "f" pages3 true).length = pages3.length ∧
     (reqsOfPages "f" pages3 true).map Req.url = pages3.map Page.url ∧
     (reqsOfPages "f" pages3 true).head? =
       some ⟨"https://gw/csapi/v1.3/containers/list", some ("f", LIMIT)⟩ ∧
     ∀ r ∈ (reqsOfPages "f" pages3 true).tail, r.params = none) ∧
    (pages3.map Page.data).flatten = [.num 1, .num 2, .num 3, .num 4, .num 5] ∧
    reqsOfPages "f" pages3 true =
      [⟨"https://gw/csapi/v1.3/containers/list", some ("f", 250)⟩,
       ⟨"https://gw/page2", none⟩, ⟨"https://gw/page3", none⟩] :=
  ⟨C3_paginator_concatenates srv3 "f" pages3 _ _ 3 rfl
    ⟨by decide, rfl, rfl, rfl, by decide, rfl, rfl, rfl, by decide, rfl, rfl, rfl, trivial⟩
    (by decide), rfl, rfl⟩

/-- The URL the paginator starts from in a failure scenario: the first
good page's URL, or the failing URL itself when the failure is on page 1. -/
def chainStartUrl (pages : List Page) (defaultUrl : String) : String :=
  match pages with
  | [] => defaultUrl
  | p :: _ => p.url

/-- C4: after any number of good pages, a 401 response makes the paginator
call `sys.exit(1)` immediately — the request log ends at the 401, no
further requests are issued — while any other non-200 status merely breaks
the loop, returning the records accumulated from the earlier pages of the
window as a partial result; at the orchestrator loop, a `sys.exit`
outcome ends the whole run whereas an `ok` outcome lets the remaining
windows be processed. -/
theorem C4_401_fatal_other_non200_break (server : String → Bool → Response)
    (filt : String) (goodPages : List Page) (badUrl : String)
    (badResp : Response) (fuel : Nat)
    (hchain : servesChainTo server goodPages true (some badUrl))
    (hbadurl : badUrl ≠ "")
    (hbad : server badUrl goodPages.isEmpty = badResp)
    (hfuel : goodPages.length + 1 ≤ fuel) :
    (badResp.status = 401 →
      fetch_paginated_data server (chainStartUrl goodPages badUrl) filt fuel =
        FetchResult.exited 1 (reqsOfPages filt goodPages true ++
          [⟨badUrl, if goodPages.isEmpty then some (filt, LIMIT) else none⟩])) ∧
    (badResp.status ≠ 401 → badResp.status ≠ 200 →
      fetch_paginated_data server (chainStartUrl goodPages badUrl) filt fuel =
        FetchResult.ok ((goodPages.map Page.data).flatten)
          (reqsOfPages filt goodPages true ++
            [⟨badUrl, if goodPages.isEmpty then some (filt, LIMIT) else none⟩])) ∧
    (∀ (f : String → FetchResult) (w : String) (ws : List String) (c : Nat) (lg : List Req),
       f w = FetchResult.exited c lg → runLoop f (w :: ws) = ([(w, .exited c lg)], true)) ∧
    (∀ (f : String → FetchResult) (w : String) (ws : List String)
       (recs : List JVal) (lg : List Req),
       f w = FetchResult.ok recs lg →
       runLoop f (w :: ws) = ((w, .ok recs lg) :: (runLoop f ws).1, (runLoop f ws).2)) := by
  refine ⟨?_, ?_, ?_, ?_⟩
  · intro h401
    cases goodPages with
    | nil =>
      obtain ⟨f, rfl⟩ : ∃ f, fuel = f + 1 := ⟨fuel - 1, by omega⟩
      simp only [fetch_paginated_data, chainStartUrl, fetchGo, if_neg hbadurl]
      simp only [List.isEmpty_nil] at hbad
      rw [hbad, h401]
      simp [reqsOfPages]
    | cons p ps =>
      have := fetchGo_chain server filt ps p true (some badUrl) [] [] fuel hchain (by simp at hfuel ⊢; omega)
      simp only [fetch_paginated_data, chainStartUrl]
      rw [this]
      obtain ⟨g, hg⟩ : ∃ g, fuel - (p :: ps).length = g + 1 := ⟨fuel - (p :: ps).length - 1, by simp at hfuel ⊢; omega⟩
      rw [hg]
      simp only [fetchGo, if_neg hbadurl]
      simp only [List.isEmpty_cons] at hbad
      rw [hbad, h401]
      simp [List.isEmpty_cons]
  · intro h401 h200
    cases goodPages with
    | nil =>
      obtain ⟨f, rfl⟩ : ∃ f, fuel = f + 1 := ⟨fuel - 1, by omega⟩
      simp only [fetch_paginated_data, chainStartUrl, fetchGo, if_neg hbadurl]
      simp only [List.isEmpty_nil] at hbad
      rw [hbad]
      simp [if_neg h401, h200, reqsOfPages]
    | cons p ps =>
      have := fetchGo_chain server filt ps p true (some badUrl) [] [] fuel hchain (by simp at hfuel ⊢; omega)
      simp only [fetch_paginated_data, chainStartUrl]
      rw [this]
      obtain ⟨g, hg⟩ : ∃ g, fuel - (p :: ps).length = g + 1 := ⟨fuel - (p :: ps).length - 1, by simp at hfuel ⊢; omega⟩
      rw [hg]
      simp only [fetchGo, if_neg hbadurl]
      simp only [List.isEmpty_cons] at hbad
      rw [hbad]
      simp [if_neg h401, h200, List.isEmpty_cons]
  · intro f w ws c lg h
    simp [runLoop, h]
  · intro f w ws recs lg h
    simp [runLoop, h]

/-- A transport whose second page answers 401. -/
def srv401 : String → Bool → Response := fun url _ =>
  if url = "https://gw/csapi/v1.3/containers/list" then
    ⟨200, .obj [("data", .list [.num 1, .num 2])], some "<https://gw/page2>; rel=next"⟩
  else ⟨401, .obj [], none⟩

/-- The good-page prefix `srv401` serves before failing. -/
def pages401 : List Page :=
  [⟨"https://gw/csapi/v1.3/containers/list", .obj [("data", .list [.num 1, .num 2])],
    [.num 1, .num 2], some "<https://gw/page2>; rel=next"⟩]

/-- A transport whose second page answers 500. -/
def srv500 : String → Bool → Response := fun url _ =>
  if url = "https://gw/csapi/v1.3/containers/list" then
    ⟨200, .obj [("data", .list [.num 1, .num 2])], some "<https://gw/page2>; rel=next"⟩
  else ⟨500, .obj [], none⟩

/-- C4 witness: a 401 on page 2 exits the process after exactly 2
requests; a 500 on page 2 instead returns page 1's records as a partial
result. -/
theorem C4_401_fatal_other_non200_break_witness :
    (fetch_paginated_data srv401 "https://gw/csapi/v1.3/containers/list" "f" 2 =
       FetchResult.exited 1 (reqsOfPages "f" pages401 true ++ [⟨"https://gw/page2", none⟩])) ∧
    (fetch_paginated_data srv500 "https://gw/csapi/v1.3/containers/list" "f" 2 =
       FetchResult.ok ((pages401.map Page.data).flatten)
         (reqsOfPages "f" pages401 true ++ [⟨"https://gw/page2", none⟩])) ∧
    reqsOfPages "f" pages401 true ++ [⟨"https://gw/page2", none⟩] =
      [⟨"https://gw/csapi/v1.3/containers/list", some ("f", 250)⟩, ⟨"https://gw/page2", none⟩] ∧
    (pages401.map Page.data).flatten = [.num 1, .num 2] :=
  ⟨(C4_401_fatal_other_non200_break srv401 "f" pages401 "https://gw/page2" ⟨401, .obj [], none⟩ 2
      ⟨by decide, rfl, rfl, rfl, trivial⟩ (by decide) rfl (by decide)).1 rfl,
   (C4_401_fatal_other_non200_break srv500 "f" pages401 "https://gw/page2" ⟨500, .obj [], none⟩ 2
      ⟨by decide, rfl, rfl, rfl, trivial⟩ (by decide) rfl (by decide)).2.1 (by decide) (by decide),
   rfl, rfl⟩

/-! ## Lemmas: path resolution (C6) -/

theorem gnvWalk_append (rest : List String) :
    ∀ (pre : List String) (obj : JVal),
      gnvWalk obj (pre ++ rest) =
        match gnvWalk obj pre with
        | none => none
        | some v => gnvWalk v rest := by
  intro pre
  induction pre with
  | nil => intro obj; simp [gnvWalk]
  | cons part pre' ih =>
    intro obj
    simp only [List.cons_append, gnvWalk]
    cases hstep : gnvStep obj part with
    | none => rfl
    | some v =>
      by_cases hn : isNullish v
      · simp [hn]
      · simp only [hn, Bool.false_eq_true, if_false, List.append_eq]
        exact ih v

theorem gnvStep_not_obj (part : String) (obj : JVal)
    (hobj : ∀ kvs, obj ≠ .obj kvs) :
    gnvStep obj part = none ∨ gnvStep obj part = some (.str "") := by
  simp only [gnvStep]
  by_cases hb : hasChar '[' part.data
  · rw [if_pos hb]
    generalize (splitOnCharL '[' part.data).map String.mk = L
    match L with
    | [] => left; rfl
    | [a] => left; rfl
    | a :: b :: c :: t => left; rfl
    | [a, b] =>
      cases obj with
      | obj kvs => exact absurd rfl (hobj kvs)
      | null => left; rfl
      | bool x => left; rfl
      | num x => left; rfl
      | str x => left; rfl
      | list x => left; rfl
  · rw [if_neg hb]
    cases obj with
    | obj kvs => exact absurd rfl (hobj kvs)
    | null => right; rfl
    | bool x => right; rfl
    | num x => right; rfl
    | str x => right; rfl
    | list x => right; rfl

theorem gnvWalk_str_empty :
    ∀ (rest : List String),
      gnvWalk (.str "") rest = none ∨ gnvWalk (.str "") rest = some (.str "") := by
  intro rest
  induction rest with
  | nil => right; rfl
  | cons part r ih =>
    simp only [gnvWalk]
    cases hstep : gnvStep (.str "") part with
    | none => left; rfl
    | some v =>
      have hv : v = .str "" := by
        rcases gnvStep_not_obj part (.str "") (by intro kvs h; cases h) with h | h
        · rw [hstep] at h; cases h
        · rw [hstep] at h; exact (Option.some.injEq _ _ ▸ h)
      subst hv
      dsimp only
      have hnn : isNullish (JVal.str "") = false := rfl
      rw [hnn]
      simp only [Bool.false_eq_true, if_false]
      exact ih

/-- C6: the enumerated guarantees of `get_nested_value`.  The function is
total by construction (every Python exception is swallowed into `""`);
whenever the walk reaches a dict and the next segment's key is absent, the
resolved value is `None` or the literal `"null"`, an indexed target is
absent / not a list / out of bounds, the segment or its index is malformed
(an internal error), or the record itself is not a mapping at a plain
segment, the whole path resolves to the empty string; and a structured
(list or mapping) leaf is serialized with `json.dumps` instead of
failing. -/
theorem C6_path_resolution_guarantees :
    (∀ (obj : JVal) (path : String) (pre rest : List String) (k : String)
       (kvs : List (String × JVal)),
       parseParts path = pre ++ k :: rest →
       gnvWalk obj pre = some (.obj kvs) →
       hasChar '[' k.data = false →
       pyLookup kvs k = none →
       get_nested_value obj path = "") ∧
    (∀ (obj : JVal) (path : String) (pre rest : List String) (k : String)
       (kvs : List (String × JVal)) (v : JVal),
       parseParts path = pre ++ k :: rest →
       gnvWalk obj pre = some (.obj kvs) →
       hasChar '[' k.data = false →
       pyLookup kvs k = some v →
       isNullish v = true →
       get_nested_value obj path = "") ∧
    (∀ (obj : JVal) (path : String) (pre rest : List String) (part key idx : String)
       (i : Int) (kvs : List (String × JVal)),
       parseParts path = pre ++ part :: rest →
       gnvWalk obj pre = some (.obj kvs) →
       hasChar '[' part.data = true →
       (splitOnCharL '[' part.data).map String.mk = [key, idx] →
       pyParseInt idx = some i →
       (∀ xs, pyLookupD kvs key (.list []) ≠ .list xs) →
       get_nested_value obj path = "") ∧
    (∀ (obj : JVal) (path : String) (pre rest : List String) (part key idx : String)
       (i : Int) (kvs : List (String × JVal)) (xs : List JVal),
       parseParts path = pre ++ part :: rest →
       gnvWalk obj pre = some (.obj kvs) →
       hasChar '[' part.data = true →
       (splitOnCharL '[' part.data).map String.mk = [key, idx] →
       pyParseInt idx = some i →
       pyLookupD kvs key (.list []) = .list xs →
       (¬ i < (xs.length : Int) ∨ pyIndex xs i = none) →
       get_nested_value obj path = "") ∧
    (∀ (obj : JVal) (path : String) (pre rest : List String) (part : String) (v : JVal),
       parseParts path = pre ++ part :: rest →
       gnvWalk obj pre = some v →
       hasChar '[' part.data = true →
       (((splitOnCharL '[' part.data).map String.mk).length ≠ 2 ∨
        (∃ key idx, (splitOnCharL '[' part.data).map String.mk = [key, idx] ∧
           pyParseInt idx = none)) →
       get_nested_value obj path = "") ∧
    (∀ (obj : JVal) (path : String),
       (∀ kvs, obj ≠ .obj kvs) →
       get_nested_value obj path = "") ∧
    (∀ (obj : JVal) (path : String) (pre : List String) (k : String)
       (kvs : List (String × JVal)) (v : JVal),
       parseParts path = pre ++ [k] →
       gnvWalk obj pre = some (.obj kvs) →
       hasChar '[' k.data = false →
       pyLookup kvs k = some v →
       ((∃ xs, v = .list xs) ∨ (∃ m, v = .obj m)) →
       get_nested_value obj path = jsonDumps v) := by
  refine ⟨?_, ?_, ?_, ?_, ?_, ?_, ?_⟩
  · intro obj path pre rest k kvs hpath hpre hb hlook
    simp only [get_nested_value, hpath, gnvWalk_append, hpre, gnvWalk, gnvStep,
      hb, Bool.false_eq_true, if_false, hlook]
  · intro obj path pre rest k kvs v hpath hpre hb hlook hnull
    simp only [get_nested_value, hpath, gnvWalk_append, hpre, gnvWalk, gnvStep,
      hb, Bool.false_eq_true, if_false, hlook, hnull, if_true]
  · intro obj path pre rest part key idx i kvs hpath hpre hb hsplit hidx htarget
    have hT : ∃ t, pyLookupD kvs key (.list []) = t := ⟨_, rfl⟩
    obtain ⟨t, ht⟩ := hT
    simp only [get_nested_value, hpath, gnvWalk_append, hpre, gnvWalk, gnvStep,
      hb, if_true, hsplit, hidx, ht]
    cases t with
    | list xs => exact absurd ht (htarget xs)
    | null => rfl
    | bool b => rfl
    | num n => rfl
    | str s => rfl
    | obj m => rfl
  · intro obj path pre rest part key idx i kvs xs hpath hpre hb hsplit hidx ht hoob
    simp only [get_nested_value, hpath, gnvWalk_append, hpre, gnvWalk, gnvStep,
      hb, if_true, hsplit, hidx, ht]
    rcases hoob with h | h
    · simp [h]
    · by_cases hlt : i < (xs.length : Int)
      · simp [hlt, h]
      · simp [hlt]
  · intro obj path pre rest part v hpath hpre hb hmal
    have hstep : gnvStep v part = none := by
      simp only [gnvStep, hb, if_true]
      rcases hmal with h | ⟨key, idx, hsp, hpi⟩
      · rcases hsp : (splitOnCharL '[' part.data).map String.mk with _ | ⟨a, _ | ⟨b, _ | ⟨c, t⟩⟩⟩
        · rfl
        · rfl
        · rw [hsp] at h; simp at h
        · rfl
      · rw [hsp]
        cases v with
        | obj kvs => simp [hpi]
        | null => rfl
        | bool b => rfl
        | num n => rfl
        | str s => rfl
        | list l => rfl
    simp only [get_nested_value, hpath, gnvWalk_append, hpre, gnvWalk, hstep]
  · intro obj path hobj
    have hne : parseParts path ≠ [] := by
      simp only [parseParts, ne_eq, List.map_eq_nil_iff]
      exact splitOnCharL_ne_nil '.' _
    obtain ⟨part, rest, hpr⟩ : ∃ part rest, parseParts path = part :: rest := by
      cases h : parseParts path with
      | nil => exact absurd h hne
      | cons a t => exact ⟨a, t, rfl⟩
    simp only [get_nested_value, hpr, gnvWalk]
    cases hstep : gnvStep obj part with
    | none => rfl
    | some v =>
      have hv : v = .str "" := by
        rcases gnvStep_not_obj part obj hobj with h | h
        · rw [hstep] at h; cases h
        · rw [hstep] at h; exact (Option.some.injEq _ _ ▸ h)
      subst hv
      dsimp only
      have hnn : isNullish (JVal.str "") = false := rfl
      rw [hnn]
      simp only [Bool.false_eq_true, if_false]
      rcases gnvWalk_str_empty rest with h | h
      · rw [h]
      · rw [h]; rfl
  · intro obj path pre k kvs v hpath hpre hb hlook hstruct
    have hnn : isNullish v = false := by
      rcases hstruct with ⟨xs, rfl⟩ | ⟨m, rfl⟩ <;> rfl
    simp only [get_nested_value, hpath, gnvWalk_append, hpre, gnvWalk, gnvStep,
      hb, Bool.false_eq_true, if_false, hlook, hnn]
    rcases hstruct with ⟨xs, rfl⟩ | ⟨m, rfl⟩ <;> rfl

/-- C6 witness: the guarantees instantiated at concrete records and paths
(absent key, `"null"` value, non-list indexed target, index out of
bounds, unparsable index, non-mapping record, structured leaf). -/
theorem C6_path_resolution_guarantees_witness :
    get_nested_value (.obj [("a", .num 1)]) "b" = "" ∧
    get_nested_value (.obj [("a", .str "null")]) "a" = "" ∧
    get_nested_value (.obj [("a", .num 1)]) "a[0]" = "" ∧
    get_nested_value (.obj [("a", .list [.num 5])]) "a[3]" = "" ∧
    get_nested_value (.obj [("a", .num 1)]) "a[x]" = "" ∧
    get_nested_value (.num 7) "a.b" = "" ∧
    get_nested_value (.obj [("a", .obj [("b", .num 3)])]) "a" =
      jsonDumps (.obj [("b", .num 3)]) :=
  ⟨C6_path_resolution_guarantees.1 (.obj [("a", .num 1)]) "b" [] [] "b"
     [("a", .num 1)] rfl rfl rfl rfl,
   C6_path_resolution_guarantees.2.1 (.obj [("a", .str "null")]) "a" [] [] "a"
     [("a", .str "null")] (.str "null") rfl rfl rfl rfl rfl,
   C6_path_resolution_guarantees.2.2.1 (.obj [("a", .num 1)]) "a[0]" [] [] "a[0" "a" "0"
     0 [("a", .num 1)] rfl rfl rfl rfl rfl (fun xs h => by cases h),
   C6_path_resolution_guarantees.2.2.2.1 (.obj [("a", .list [.num 5])]) "a[3]" [] [] "a[3"
     "a" "3" 3 [("a", .list [.num 5])] [.num 5] rfl rfl rfl rfl rfl rfl
     (Or.inl (by decide)),
   C6_path_resolution_guarantees.2.2.2.2.1 (.obj [("a", .num 1)]) "a[x]" [] [] "a[x"
     (.obj [("a", .num 1)]) rfl rfl rfl (Or.inr ⟨"a", "x", rfl, rfl⟩),
   C6_path_resolution_guarantees.2.2.2.2.2.1 (.num 7) "a.b" (fun kvs h => by cases h),
   C6_path_resolution_guarantees.2.2.2.2.2.2 (.obj [("a", .obj [("b", .num 3)])]) "a" [] "a"
     [("a", .obj [("b", .num 3)])] (.obj [("b", .num 3)]) rfl rfl rfl rfl
     (Or.inr ⟨[("b", .num 3)], rfl⟩)⟩

/-! ## Lemmas: rows and the flattener (C1, C7, C8, C10) -/

theorem rowLookup_none_iff (r : Row) (k : String) :
    rowLookup r k = none ↔ k ∉ rowKeys r := by
  induction r with
  | nil => simp [rowLookup, rowKeys]
  | cons kv rest ih =>
    obtain ⟨k', v⟩ := kv
    by_cases h : k' = k
    · subst h
      simp [rowLookup, rowKeys]
    · simp [rowLookup, rowKeys, h, ih, Ne.symm h]

theorem rowLookup_isSome_iff (r : Row) (k : String) :
    (∃ v, rowLookup r k = some v) ↔ k ∈ rowKeys r := by
  rcases h : rowLookup r k with _ | v
  · rw [rowLookup_none_iff] at h
    simp [h]
  · have : k ∈ rowKeys r := by
      by_contra hk
      rw [← rowLookup_none_iff] at hk
      rw [h] at hk
      cases hk
    simp [this]

theorem rowSet_cons (k' v' : String) (rest : Row) (k v : String) :
    rowSet ((k', v') :: rest) k v =
      if k' = k then (k', v) :: rest else (k', v') :: rowSet rest k v := rfl

theorem rowKeys_rowSet_mem (r : Row) (k v : String) (a : String) :
    a ∈ rowKeys (rowSet r k v) ↔ a ∈ rowKeys r ∨ a = k := by
  induction r with
  | nil => simp [rowSet, rowKeys, eq_comm]
  | cons kv rest ih =>
    obtain ⟨k', v'⟩ := kv
    rw [rowSet_cons]
    by_cases h : k' = k
    · subst h
      rw [if_pos rfl]
      simp only [rowKeys, List.map_cons, List.mem_cons]
      tauto
    · rw [if_neg h]
      simp only [rowKeys, List.map_cons, List.mem_cons] at ih ⊢
      rw [ih]
      tauto

theorem rowLookup_rowSet_self (r : Row) (k v : String) :
    rowLookup (rowSet r k v) k = some v := by
  induction r with
  | nil => simp [rowSet, rowLookup]
  | cons kv rest ih =>
    obtain ⟨k', v'⟩ := kv
    rw [rowSet_cons]
    by_cases h : k' = k
    · subst h
      rw [if_pos rfl]
      simp [rowLookup]
    · rw [if_neg h]
      simp only [rowLookup, if_neg h]
      exact ih

theorem rowLookup_rowSet_other (r : Row) (k v : String) (a : String) (ha : a ≠ k) :
    rowLookup (rowSet r k v) a = rowLookup r a := by
  have hka : ¬ k = a := fun h => ha h.symm
  induction r with
  | nil => simp [rowSet, rowLookup, hka]
  | cons kv rest ih =>
    obtain ⟨k', v'⟩ := kv
    rw [rowSet_cons]
    by_cases h : k' = k
    · subst h
      rw [if_pos rfl]
      simp only [rowLookup, if_neg hka]
    · rw [if_neg h]
      by_cases h2 : k' = a
      · subst h2
        simp [rowLookup]
      · simp only [rowLookup, if_neg h2]
        exact ih

theorem mem_rowSet (r : Row) (k v : String) (kv : String × String) :
    kv ∈ rowSet r k v → kv ∈ r ∨ kv = (k, v) := by
  induction r with
  | nil => simp [rowSet]
  | cons kv' rest ih =>
    obtain ⟨k', v'⟩ := kv'
    rw [rowSet_cons]
    by_cases h : k' = k
    · subst h
      rw [if_pos rfl]
      intro hm
      rcases List.mem_cons.mp hm with h2 | h2
      · exact Or.inr (by simpa using h2)
      · exact Or.inl (List.mem_cons_of_mem _ h2)
    · rw [if_neg h]
      intro hm
      rcases List.mem_cons.mp hm with h2 | h2
      · exact Or.inl (by simp [h2])
      · rcases ih h2 with h3 | h3
        · exact Or.inl (List.mem_cons_of_mem _ h3)
        · exact Or.inr h3

theorem rowKeys_rowUpdate_mem (s : Row) :
    ∀ (r : Row) (a : String),
      a ∈ rowKeys (rowUpdate r s) ↔ a ∈ rowKeys r ∨ a ∈ rowKeys s := by
  induction s with
  | nil => intro r a; simp [rowUpdate, rowKeys]
  | cons kv rest ih =>
    intro r a
    obtain ⟨k, v⟩ := kv
    have : rowUpdate r ((k, v) :: rest) = rowUpdate (rowSet r k v) rest := rfl
    rw [this, ih, rowKeys_rowSet_mem]
    simp [rowKeys]
    tauto

theorem mem_rowUpdate (s : Row) :
    ∀ (r : Row) (kv : String × String),
      kv ∈ rowUpdate r s → kv ∈ r ∨ kv ∈ s := by
  induction s with
  | nil => intro r kv h; exact Or.inl h
  | cons kv0 rest ih =>
    intro r kv h
    obtain ⟨k, v⟩ := kv0
    have : rowUpdate r ((k, v) :: rest) = rowUpdate (rowSet r k v) rest := rfl
    rw [this] at h
    rcases ih _ kv h with h2 | h2
    · rcases mem_rowSet r k v kv h2 with h3 | h3
      · exact Or.inl h3
      · exact Or.inr (by simp [h3])
    · exact Or.inr (List.mem_cons_of_mem _ h2)

theorem rowLookup_rowUpdate (s : Row) :
    ∀ (r : Row) (k : String), (rowKeys s).Nodup →
      rowLookup (rowUpdate r s) k =
        match rowLookup s k with
        | some v => some v
        | none => rowLookup r k := by
  induction s with
  | nil => intro r k _; simp [rowUpdate, rowLookup]
  | cons kv rest ih =>
    intro r k hnd
    obtain ⟨k0, v0⟩ := kv
    have hstep : rowUpdate r ((k0, v0) :: rest) = rowUpdate (rowSet r k0 v0) rest := rfl
    have hnd' : (rowKeys rest).Nodup := by
      simpa [rowKeys] using hnd.of_cons
    rw [hstep, ih _ k hnd']
    by_cases h : k0 = k
    · subst h
      have hk0 : k0 ∉ rowKeys rest := by
        simp only [rowKeys, List.map_cons] at hnd
        exact (List.nodup_cons.mp hnd).1
      have : rowLookup rest k0 = none := (rowLookup_none_iff rest k0).mpr hk0
      rw [this]
      simp [rowLookup, rowLookup_rowSet_self]
    · simp only [rowLookup, if_neg h]
      cases hr : rowLookup rest k with
      | some v => rfl
      | none => rw [rowLookup_rowSet_other r k0 v0 k (fun hh => h hh.symm)]

theorem rowLookup_append_left (r t : Row) (k : String) (v : String)
    (h : rowLookup r k = some v) : rowLookup (r ++ t) k = some v := by
  induction r with
  | nil => cases h
  | cons kv rest ih =>
    obtain ⟨k', v'⟩ := kv
    by_cases h2 : k' = k
    · subst h2
      simp only [rowLookup, if_pos rfl] at h ⊢
      exact h
    · simp only [rowLookup, if_neg h2] at h ⊢
      exact ih h

theorem fillCols_lookup_some (cols : List String) :
    ∀ (r : Row) (k : String) (v : String),
      rowLookup r k = some v → rowLookup (fillCols cols r) k = some v := by
  induction cols with
  | nil => intro r k v h; exact h
  | cons c rest ih =>
    intro r k v h
    have hstep : fillCols (c :: rest) r =
        fillCols rest (if (rowKeys r).contains c then r else r ++ [(c, "")]) := rfl
    rw [hstep]
    by_cases hc : (rowKeys r).contains c
    · rw [if_pos hc]
      exact ih r k v h
    · rw [if_neg hc]
      exact ih _ k v (rowLookup_append_left r [(c, "")] k v h)

theorem rowLookup_append_missing (r : Row) (k x : String)
    (h : rowLookup r k = none) : rowLookup (r ++ [(k, x)]) k = some x := by
  induction r with
  | nil => simp [rowLookup]
  | cons kv rest ih =>
    obtain ⟨k', v'⟩ := kv
    by_cases h2 : k' = k
    · subst h2
      simp only [rowLookup, if_pos rfl] at h
      cases h
    · simp only [rowLookup, if_neg h2] at h ⊢
      exact ih h

theorem fillCols_lookup_missing (cols : List String) :
    ∀ (r : Row) (k : String), k ∈ cols → rowLookup r k = none →
      rowLookup (fillCols cols r) k = some "" := by
  induction cols with
  | nil => intro r k h; cases h
  | cons c rest ih =>
    intro r k hk h
    have hstep : fillCols (c :: rest) r =
        fillCols rest (if (rowKeys r).contains c then r else r ++ [(c, "")]) := rfl
    rw [hstep]
    by_cases hck : c = k
    · subst hck
      have hnc : ¬ (rowKeys r).contains c = true := by
        rw [List.elem_iff]
        exact (rowLookup_none_iff r c).mp h
      rw [if_neg hnc]
      exact fillCols_lookup_some rest _ c "" (rowLookup_append_missing r c "" h)
    · have hk' : k ∈ rest := by
        rcases List.mem_cons.mp hk with h2 | h2
        · exact absurd h2.symm hck
        · exact h2
      by_cases hc : (rowKeys r).contains c
      · rw [if_pos hc]
        exact ih r k hk' h
      · rw [if_neg hc]
        refine ih _ k hk' ?_
        rw [rowLookup_none_iff] at h ⊢
        simp only [rowKeys, List.map_append, List.mem_append] at h ⊢
        rintro (h2 | h2)
        · exact h h2
        · simp at h2
          exact hck (h2.symm)

theorem rowKeys_fillCols_mem (cols : List String) :
    ∀ (r : Row) (a : String),
      a ∈ rowKeys (fillCols cols r) ↔ a ∈ rowKeys r ∨ a ∈ cols := by
  induction cols with
  | nil => intro r a; simp [fillCols]
  | cons c rest ih =>
    intro r a
    have hstep : fillCols (c :: rest) r =
        fillCols rest (if (rowKeys r).contains c then r else r ++ [(c, "")]) := rfl
    rw [hstep]
    by_cases hc : (rowKeys r).contains c
    · rw [if_pos hc, ih]
      rw [List.elem_iff] at hc
      constructor
      · rintro (h | h)
        · exact Or.inl h
        · exact Or.inr (List.mem_cons_of_mem _ h)
      · rintro (h | h)
        · exact Or.inl h
        · rcases List.mem_cons.mp h with h2 | h2
          · subst h2; exact Or.inl hc
          · exact Or.inr h2
    · rw [if_neg hc, ih]
      simp only [rowKeys, List.map_append, List.mem_append, List.map_cons,
        List.map_nil, List.mem_singleton, List.mem_cons]
      constructor
      · rintro ((h | h) | h)
        · exact Or.inl h
        · simp at h; subst h; exact Or.inr (Or.inl rfl)
        · exact Or.inr (Or.inr h)
      · rintro (h | (h | h))
        · exact Or.inl (Or.inl h)
        · subst h; exact Or.inl (Or.inr (by simp))
        · exact Or.inr h

theorem mem_fillCols (cols : List String) :
    ∀ (r : Row) (kv : String × String),
      kv ∈ fillCols cols r → kv ∈ r ∨ kv.2 = "" := by
  induction cols with
  | nil => intro r kv h; exact Or.inl h
  | cons c rest ih =>
    intro r kv h
    have hstep : fillCols (c :: rest) r =
        fillCols rest (if (rowKeys r).contains c then r else r ++ [(c, "")]) := rfl
    rw [hstep] at h
    by_cases hc : (rowKeys r).contains c
    · rw [if_pos hc] at h
      exact ih r kv h
    · rw [if_neg hc] at h
      rcases ih _ kv h with h2 | h2
      · rcases List.mem_append.mp h2 with h3 | h3
        · exact Or.inl h3
        · simp at h3
          exact Or.inr (by simp [h3])
      · exact Or.inr h2

theorem fillCols_lookup_eq (cols : List String) (r : Row) (k : String) :
    rowLookup (fillCols cols r) k =
      match rowLookup r k with
      | some v => some v
      | none => if k ∈ cols then some "" else none := by
  cases h : rowLookup r k with
  | some v => exact fillCols_lookup_some cols r k v h
  | none =>
    by_cases hk : k ∈ cols
    · simp only [if_pos hk]
      exact fillCols_lookup_missing cols r k hk h
    · simp only [if_neg hk]
      rw [rowLookup_none_iff, rowKeys_fillCols_mem]
      push_neg
      exact ⟨(rowLookup_none_iff r k).mp h, hk⟩

theorem rowKeys_foldSet_mem (f : String → String) :
    ∀ (cs : List String) (r₀ : Row) (a : String),
      a ∈ rowKeys (cs.foldl (fun r c => rowSet r c (f c)) r₀) ↔
        a ∈ rowKeys r₀ ∨ a ∈ cs := by
  intro cs
  induction cs with
  | nil => intro r₀ a; simp
  | cons c rest ih =>
    intro r₀ a
    rw [List.foldl_cons, ih, rowKeys_rowSet_mem]
    simp only [List.mem_cons]
    tauto

theorem mem_foldSet (f : String → String) :
    ∀ (cs : List String) (r₀ : Row) (kv : String × String),
      kv ∈ cs.foldl (fun r c => rowSet r c (f c)) r₀ →
        kv ∈ r₀ ∨ ∃ c ∈ cs, kv = (c, f c) := by
  intro cs
  induction cs with
  | nil => intro r₀ kv h; exact Or.inl h
  | cons c rest ih =>
    intro r₀ kv h
    rw [List.foldl_cons] at h
    rcases ih _ kv h with h2 | ⟨c', hc', h2⟩
    · rcases mem_rowSet r₀ c (f c) kv h2 with h3 | h3
      · exact Or.inl h3
      · exact Or.inr ⟨c, by simp, h3⟩
    · exact Or.inr ⟨c', List.mem_cons_of_mem _ hc', h2⟩

theorem rowKeys_finalizeRow (r : Row) : rowKeys (finalizeRow r) = rowKeys r := by
  induction r with
  | nil => rfl
  | cons kv rest ih => simp [finalizeRow, rowKeys]

theorem rowLookup_finalizeRow (r : Row) (k : String) :
    rowLookup (finalizeRow r) k = (rowLookup r k).map sanitizeStr := by
  induction r with
  | nil => rfl
  | cons kv rest ih =>
    obtain ⟨k', v'⟩ := kv
    by_cases h : k' = k
    · subst h
      simp [finalizeRow, rowLookup]
    · simp only [finalizeRow, List.map_cons, rowLookup, if_neg h] at ih ⊢
      exact ih

theorem mem_finalizeRow (r : Row) (kv : String × String) (h : kv ∈ finalizeRow r) :
    ∃ v', (kv.1, v') ∈ r ∧ kv.2 = sanitizeStr v' := by
  simp only [finalizeRow, List.mem_map] at h
  obtain ⟨⟨a, b⟩, hab, heq⟩ := h
  exact ⟨b, by simpa [← heq] using hab, by simp [← heq]⟩

theorem vulnColumns_nodup : vulnColumns.Nodup := by decide

theorem vulnColumns_startsWith :
    ∀ k ∈ vulnColumns, pyStartsWith k "vuln_" = true := by decide

theorem flatten_vuln_keys (v : JVal) (fr : Row) (h : flatten_vuln v = some fr) :
    rowKeys fr = vulnColumns := by
  cases v with
  | obj kvs =>
    simp only [flatten_vuln] at h
    cases hsl : softwareLists (pyLookupD kvs "software" (.list [])) with
    | none => rw [hsl] at h; cases h
    | some quad =>
      obtain ⟨ns, vs, fs, ps⟩ := quad
      rw [hsl] at h
      simp only [Option.some.injEq] at h
      subst h
      rfl
  | null => cases h
  | bool b => cases h
  | num n => cases h
  | str s => cases h
  | list l => cases h

theorem expandVulns_spec (cols : List String) (base : Row) :
    ∀ (vl : List JVal) (rows : List Row),
      expandVulns cols base vl = some rows →
      rows.length = vl.length ∧
      ∀ (i : Nat) (v : JVal), vl[i]? = some v →
        ∃ fr, flatten_vuln v = some fr ∧
          rows[i]? = some (fillCols cols (rowUpdate base fr)) := by
  intro vl
  induction vl with
  | nil =>
    intro rows h
    simp only [expandVulns, Option.some.injEq] at h
    subst h
    exact ⟨rfl, by intro i v h; simp at h⟩
  | cons v vs ih =>
    intro rows h
    simp only [expandVulns] at h
    cases hfr : flatten_vuln v with
    | none => rw [hfr] at h; cases h
    | some fr =>
      rw [hfr] at h
      cases hrest : expandVulns cols base vs with
      | none => rw [hrest] at h; cases h
      | some rows' =>
        rw [hrest] at h
        simp only [Option.some.injEq] at h
        subst h
        obtain ⟨hlen, hidx⟩ := ih rows' hrest
        refine ⟨by simp [hlen], ?_⟩
        intro i w hw
        cases i with
        | zero =>
          simp only [List.getElem?_cons_zero, Option.some.injEq] at hw
          subst hw
          exact ⟨fr, hfr, by simp⟩
        | succ j =>
          simp only [List.getElem?_cons_succ] at hw ⊢
          exact hidx j w hw

theorem expandVulns_total (cols : List String) (base : Row) :
    ∀ (vl : List JVal), (∀ v ∈ vl, ∃ fr, flatten_vuln v = some fr) →
      ∃ rows, expandVulns cols base vl = some rows := by
  intro vl
  induction vl with
  | nil => intro _; exact ⟨[], rfl⟩
  | cons v vs ih =>
    intro h
    obtain ⟨fr, hfr⟩ := h v (by simp)
    obtain ⟨rows', hrows'⟩ := ih (fun w hw => h w (List.mem_cons_of_mem _ hw))
    exact ⟨fillCols cols (rowUpdate base fr) :: rows',
      by simp only [expandVulns, hfr, hrows']⟩

theorem expand_obj_eq (cols : List String) (kvs : List (String × JVal)) :
    expand_container_to_rows cols (.obj kvs) =
      match pyLookup kvs "vulnerabilities" with
      | some (.list (v :: vs)) =>
        (expandVulns cols (build_container_base cols (.obj kvs)) (v :: vs)).map
          (fun rows => rows.map finalizeRow)
      | _ => some [finalizeRow (fillCols cols (build_container_base cols (.obj kvs)))] := rfl

theorem expand_obj_cases (cols : List String) (kvs : List (String × JVal))
    (rows : List Row) (h : expand_container_to_rows cols (.obj kvs) = some rows) :
    (∃ v vs rows', pyLookup kvs "vulnerabilities" = some (.list (v :: vs)) ∧
       expandVulns cols (build_container_base cols (.obj kvs)) (v :: vs) = some rows' ∧
       rows = rows'.map finalizeRow) ∨
    ((∀ v vs, pyLookup kvs "vulnerabilities" ≠ some (.list (v :: vs))) ∧
     rows = [finalizeRow (fillCols cols (build_container_base cols (.obj kvs)))]) := by
  rw [expand_obj_eq] at h
  cases hlook : pyLookup kvs "vulnerabilities" with
  | none =>
    rw [hlook] at h
    have h' : some [finalizeRow (fillCols cols (build_container_base cols (.obj kvs)))] =
        some rows := h
    injection h' with h''
    exact Or.inr ⟨(by intro v vs hh; cases hh), h''.symm⟩
  | some w =>
    rw [hlook] at h
    cases w with
    | list l =>
      cases l with
      | nil =>
        have h' : some [finalizeRow (fillCols cols (build_container_base cols (.obj kvs)))] =
            some rows := h
        injection h' with h''
        refine Or.inr ⟨(by intro v vs hh; simp at hh), h''.symm⟩
      | cons v vs =>
        have h' : Option.map (fun rows => rows.map finalizeRow)
            (expandVulns cols (build_container_base cols (.obj kvs)) (v :: vs)) = some rows := h
        cases hexp : expandVulns cols (build_container_base cols (.obj kvs)) (v :: vs) with
        | none => rw [hexp] at h'; cases h'
        | some rows' =>
          rw [hexp] at h'
          simp only [Option.map_some', Option.some.injEq] at h'
          exact Or.inl ⟨v, vs, rows', rfl, hexp, h'.symm⟩
    | null =>
      have h' : some [finalizeRow (fillCols cols (build_container_base cols (.obj kvs)))] =
          some rows := h
      injection h' with h''
      refine Or.inr ⟨(by intro v vs hh; simp at hh), h''.symm⟩
    | bool b =>
      have h' : some [finalizeRow (fillCols cols (build_container_base cols (.obj kvs)))] =
          some rows := h
      injection h' with h''
      refine Or.inr ⟨(by intro v vs hh; simp at hh), h''.symm⟩
    | num n =>
      have h' : some [finalizeRow (fillCols cols (build_container_base cols (.obj kvs)))] =
          some rows := h
      injection h' with h''
      refine Or.inr ⟨(by intro v vs hh; simp at hh), h''.symm⟩
    | str st =>
      have h' : some [finalizeRow (fillCols cols (build_container_base cols (.obj kvs)))] =
          some rows := h
      injection h' with h''
      refine Or.inr ⟨(by intro v vs hh; simp at hh), h''.symm⟩
    | obj m =>
      have h' : some [finalizeRow (fillCols cols (build_container_base cols (.obj kvs)))] =
          some rows := h
      injection h' with h''
      refine Or.inr ⟨(by intro v vs hh; simp at hh), h''.symm⟩

theorem rowKeys_base_mem (cols : List String) (container : JVal) (a : String) :
    a ∈ rowKeys (build_container_base cols container) ↔ a ∈ baseContainerColumns cols := by
  have := rowKeys_foldSet_mem (fun c => sanitizeStr (get_nested_value container c))
    (baseContainerColumns cols) [] a
  simpa [build_container_base, rowKeys] using this

theorem mem_of_mem_baseContainerColumns (cols : List String) (a : String)
    (h : a ∈ baseContainerColumns cols) : a ∈ cols :=
  (List.mem_filter.mp h).1

/-- The shape of every row in the finding branch of
`expand_container_to_rows`. -/
theorem expand_row_shape (cols : List String) (kvs : List (String × JVal))
    (rows : List Row) (h : expand_container_to_rows cols (.obj kvs) = some rows)
    (r : Row) (hr : r ∈ rows) :
    (∃ fr, (∃ v, flatten_vuln v = some fr) ∧
       r = finalizeRow (fillCols cols
         (rowUpdate (build_container_base cols (.obj kvs)) fr))) ∨
    r = finalizeRow (fillCols cols (build_container_base cols (.obj kvs))) := by
  rcases expand_obj_cases cols kvs rows h with
    ⟨v, vs, rows', hlook, hexp, hrows⟩ | ⟨hnot, hrows⟩
  · subst hrows
    obtain ⟨r'', hr'', hfin⟩ := List.mem_map.mp hr
    obtain ⟨hlen, hidx⟩ := expandVulns_spec cols _ (v :: vs) rows' hexp
    obtain ⟨i, hi, hget⟩ := List.getElem_of_mem hr''
    have hvl : (v :: vs)[i]? = some ((v :: vs).get ⟨i, by omega⟩) := by
      simp [List.getElem?_eq_getElem, hlen ▸ hi]
    obtain ⟨fr, hfr, hreq⟩ := hidx i _ hvl
    have : r'' = fillCols cols (rowUpdate (build_container_base cols (.obj kvs)) fr) := by
      rw [List.getElem?_eq_getElem hi] at hreq
      simpa [hget] using hreq
    subst this
    exact Or.inl ⟨fr, ⟨_, hfr⟩, hfin.symm⟩
  · subst hrows
    simp only [List.mem_singleton] at hr
    exact Or.inr hr

/-- C7 (amended): a flattener row's key set is the schema plus the nine
finding-level keys; it therefore equals the schema exactly whenever the
nine finding-level columns are included in the schema (as in the default),
and the CSV writer's row filter guarantees an exactly-schema key set for
any override. -/
theorem C7_row_keys (cols : List String) (container : JVal) (rows : List Row) :
    (expand_container_to_rows cols container = some rows →
       (∀ k ∈ vulnColumns, k ∈ cols) →
       ∀ r ∈ rows, ∀ a, a ∈ rowKeys r ↔ a ∈ cols) ∧
    (∀ (r : Row) (a : String), a ∈ rowKeys (filterRowToSchema cols r) ↔ a ∈ cols) := by
  constructor
  · intro h hcols r hr a
    cases container with
    | obj kvs =>
      rcases expand_row_shape cols kvs rows h r hr with ⟨fr, ⟨v, hfr⟩, hrr⟩ | hrr
      · subst hrr
        rw [rowKeys_finalizeRow, rowKeys_fillCols_mem, rowKeys_rowUpdate_mem,
          rowKeys_base_mem, flatten_vuln_keys v fr hfr]
        constructor
        · rintro ((h2 | h2) | h2)
          · exact mem_of_mem_baseContainerColumns cols a h2
          · exact hcols a h2
          · exact h2
        · intro h2
          exact Or.inr h2
      · subst hrr
        rw [rowKeys_finalizeRow, rowKeys_fillCols_mem, rowKeys_base_mem]
        constructor
        · rintro (h2 | h2)
          · exact mem_of_mem_baseContainerColumns cols a h2
          · exact h2
        · intro h2
          exact Or.inr h2
    | null => cases h
    | bool b => cases h
    | num n => cases h
    | str s => cases h
    | list l => cases h
  · intro r a
    have := rowKeys_foldSet_mem (fun c => (rowLookup r c).getD "") cols [] a
    simpa [filterRowToSchema, rowKeys] using this

set_option maxRecDepth 8000 in
/-- C7 counterexample: with the schema override `["name"]`, a record with
one finding yields a flattener row whose key set strictly exceeds the
schema (it contains `vuln_qid` and the other eight finding-level keys). -/
theorem C7_counterexample :
    (expand_container_to_rows ["name"]
        (.obj [("name", .str "c"), ("vulnerabilities", .list [.obj []])])).map
        (fun rs => rs.map rowKeys) = some [["name"] ++ vulnColumns] ∧
    "vuln_qid" ∈ ("name" :: vulnColumns) ∧ "vuln_qid" ∉ (["name"] : List String) :=
  ⟨by decide, by decide, by decide⟩

set_option maxRecDepth 8000 in
/-- C7 witness: the amended statement at the default schema on a record
with one finding, and the writer filter at the override `["name"]`. -/
theorem C7_row_keys_witness :
    (∀ r ∈ [finalizeRow (fillCols CSV_COLUMNS_default
        (rowUpdate (build_container_base CSV_COLUMNS_default
          (.obj [("name", .str "c"), ("vulnerabilities", .list [.obj []])]))
          [("vuln_qid", ""), ("vuln_firstFound", ""), ("vuln_lastFound", ""),
           ("vuln_typeDetected", ""), ("vuln_scanTypes", ""),
           ("vuln_software_names", ""), ("vuln_software_versions", ""),
           ("vuln_software_fixVersions", ""), ("vuln_software_packagePaths", "")]))],
       ∀ a, a ∈ rowKeys r ↔ a ∈ CSV_COLUMNS_default) ∧
    (∀ (r : Row) (a : String),
       a ∈ rowKeys (filterRowToSchema ["name"] r) ↔ a ∈ (["name"] : List String)) :=
  ⟨(C7_row_keys CSV_COLUMNS_default
      (.obj [("name", .str "c"), ("vulnerabilities", .list [.obj []])]) _).1
      (by decide) (by decide),
   (C7_row_keys ["name"] (.obj []) []).2⟩

theorem sanitizeStr_empty : sanitizeStr "" = "" := rfl

theorem row_lookup_record_level (cols : List String) (base : Row) (fr : Row)
    (hkeys : rowKeys fr = vulnColumns) (k : String)
    (hk : pyStartsWith k "vuln_" = false) :
    rowLookup (finalizeRow (fillCols cols (rowUpdate base fr))) k =
      Option.map sanitizeStr (rowLookup (fillCols cols base) k) := by
  rw [rowLookup_finalizeRow]
  congr 1
  rw [fillCols_lookup_eq, fillCols_lookup_eq]
  have hfr : rowLookup fr k = none := by
    rw [rowLookup_none_iff, hkeys]
    intro hmem
    rw [vulnColumns_startsWith k hmem] at hk
    cases hk
  rw [rowLookup_rowUpdate fr base k (hkeys ▸ vulnColumns_nodup), hfr]

/-- Every row the flattener emits resolves a record-level (non-`vuln_`)
column the same way: through the sanitized base row, independent of which
finding the row came from. -/
theorem expand_record_level_const (cols : List String) (kvs : List (String × JVal))
    (rows : List Row) (h : expand_container_to_rows cols (.obj kvs) = some rows)
    (r : Row) (hr : r ∈ rows) (k : String) (hk : pyStartsWith k "vuln_" = false) :
    rowLookup r k =
      Option.map sanitizeStr
        (rowLookup (fillCols cols (build_container_base cols (.obj kvs))) k) := by
  rcases expand_row_shape cols kvs rows h r hr with ⟨fr, ⟨v, hfr⟩, hrr⟩ | hrr
  · subst hrr
    exact row_lookup_record_level cols _ fr (flatten_vuln_keys v fr hfr) k hk
  · subst hrr
    rw [rowLookup_finalizeRow]

/-- C1 (amended): for every record (a mapping) and schema, a record whose
vulnerability list is absent, empty or not a list yields exactly one row
whose `vuln_`-prefixed columns are all `""`; a record whose vulnerability
list has `N ≥ 1` elements, each a well-formed finding (a mapping on which
`flatten_vuln` succeeds), yields exactly `N` rows, the `i`-th row carrying
the `i`-th finding's flattened values (sanitized once more), and all rows
agreeing on every record-level (non-`vuln_`) column. -/
theorem C1_row_cardinality (cols : List String) (kvs : List (String × JVal)) :
    ((∀ v vs, pyLookup kvs "vulnerabilities" ≠ some (.list (v :: vs))) →
      ∃ row, expand_container_to_rows cols (.obj kvs) = some [row] ∧
        ∀ k, k ∈ cols → pyStartsWith k "vuln_" = true → rowLookup row k = some "") ∧
    (∀ v vs, pyLookup kvs "vulnerabilities" = some (.list (v :: vs)) →
      (∀ w ∈ v :: vs, ∃ fr, flatten_vuln w = some fr) →
      ∃ rows, expand_container_to_rows cols (.obj kvs) = some rows ∧
        rows.length = (v :: vs).length ∧
        (∀ (i : Nat) (w : JVal), (v :: vs)[i]? = some w →
          ∃ fr, flatten_vuln w = some fr ∧
            ∃ r, rows[i]? = some r ∧
              ∀ k val, rowLookup fr k = some val →
                rowLookup r k = some (sanitizeStr val)) ∧
        (∀ r₁ ∈ rows, ∀ r₂ ∈ rows, ∀ k, pyStartsWith k "vuln_" = false →
          rowLookup r₁ k = rowLookup r₂ k)) := by
  constructor
  · intro hnot
    refine ⟨finalizeRow (fillCols cols (build_container_base cols (.obj kvs))), ?_, ?_⟩
    · rw [expand_obj_eq]
      cases hlook : pyLookup kvs "vulnerabilities" with
      | none => rfl
      | some w =>
        cases w with
        | list l =>
          cases l with
          | nil => rfl
          | cons v vs => exact absurd hlook (hnot v vs)
        | null => rfl
        | bool b => rfl
        | num n => rfl
        | str s => rfl
        | obj m => rfl
    · intro k hk hsw
      rw [rowLookup_finalizeRow, fillCols_lookup_eq]
      have hbase : rowLookup (build_container_base cols (.obj kvs)) k = none := by
        rw [rowLookup_none_iff, rowKeys_base_mem]
        intro hmem
        have h2 := (List.mem_filter.mp hmem).2
        rw [hsw] at h2
        cases h2
      rw [hbase]
      simp [hk, sanitizeStr_empty]
  · intro v vs hlook hwf
    obtain ⟨rows', hexp⟩ := expandVulns_total cols (build_container_base cols (.obj kvs)) (v :: vs) hwf
    obtain ⟨hlen, hidx⟩ := expandVulns_spec cols _ (v :: vs) rows' hexp
    have hexpand : expand_container_to_rows cols (.obj kvs) = some (rows'.map finalizeRow) := by
      rw [expand_obj_eq, hlook]
      dsimp only
      rw [hexp]
      rfl
    refine ⟨rows'.map finalizeRow, hexpand, by simp [hlen], ?_, ?_⟩
    · intro i w hw
      obtain ⟨fr, hfr, hri⟩ := hidx i w hw
      refine ⟨fr, hfr,
        finalizeRow (fillCols cols (rowUpdate (build_container_base cols (.obj kvs)) fr)), ?_, ?_⟩
      · rw [List.getElem?_map, hri]
        rfl
      · intro k val hval
        rw [rowLookup_finalizeRow]
        have hnod : (rowKeys fr).Nodup := (flatten_vuln_keys _ fr hfr) ▸ vulnColumns_nodup
        have h1 : rowLookup (rowUpdate (build_container_base cols (.obj kvs)) fr) k = some val := by
          rw [rowLookup_rowUpdate fr _ k hnod, hval]
        rw [fillCols_lookup_some cols _ k val h1]
        rfl
    · intro r₁ hr₁ r₂ hr₂ k hk
      rw [expand_record_level_const cols kvs _ hexpand r₁ hr₁ k hk,
        expand_record_level_const cols kvs _ hexpand r₂ hr₂ k hk]

/-- C1 counterexample: a record whose vulnerability list contains an
element that is not a mapping makes the flattener raise (the embedded
crash), so it does not yield `N` rows as the claim states. -/
theorem C1_counterexample :
    expand_container_to_rows CSV_COLUMNS_default
      (.obj [("vulnerabilities", .list [.num 5])]) = none := rfl

set_option maxRecDepth 8000 in
/-- C1 witness: the amended statement at a record with no vulnerability
key (default schema) and at a record with one well-formed finding. -/
theorem C1_row_cardinality_witness :
    (∃ row, expand_container_to_rows CSV_COLUMNS_default (.obj [("name", .str "c")]) =
        some [row] ∧
      ∀ k, k ∈ CSV_COLUMNS_default → pyStartsWith k "vuln_" = true →
        rowLookup row k = some "") ∧
    (∃ rows, expand_container_to_rows ["name"]
        (.obj [("vulnerabilities", .list [.obj [("qid", .num 42)]])]) = some rows ∧
      rows.length = ([.obj [("qid", .num 42)]] : List JVal).length ∧
      (∀ (i : Nat) (w : JVal), ([.obj [("qid", .num 42)]] : List JVal)[i]? = some w →
        ∃ fr, flatten_vuln w = some fr ∧
          ∃ r, rows[i]? = some r ∧
            ∀ k val, rowLookup fr k = some val →
              rowLookup r k = some (sanitizeStr val)) ∧
      (∀ r₁ ∈ rows, ∀ r₂ ∈ rows, ∀ k, pyStartsWith k "vuln_" = false →
        rowLookup r₁ k = rowLookup r₂ k)) :=
  ⟨(C1_row_cardinality CSV_COLUMNS_default [("name", .str "c")]).1
      (fun v vs h => Option.noConfusion h),
   (C1_row_cardinality ["name"] [("vulnerabilities", .list [.obj [("qid", .num 42)]])]).2
      (.obj [("qid", .num 42)]) [] rfl
      (by intro w hw; simp at hw; subst hw; exact ⟨_, rfl⟩)⟩

/-! ## Lemmas: software columns (C8) -/

theorem softwareQuads_length :
    ∀ (sws : List JVal) (qs : List (String × String × String × String)),
      softwareQuads sws = some qs → qs.length = sws.length := by
  intro sws
  induction sws with
  | nil =>
    intro qs h
    simp only [softwareQuads, Option.some.injEq] at h
    subst h
    rfl
  | cons sw rest ih =>
    intro qs h
    simp only [softwareQuads] at h
    cases hq : entryQuad sw with
    | none => rw [hq] at h; cases h
    | some q =>
      rw [hq] at h
      cases hrest : softwareQuads rest with
      | none => rw [hrest] at h; cases h
      | some qs' =>
        rw [hrest] at h
        simp only [Option.some.injEq] at h
        subst h
        simp [ih qs' hrest]

theorem softwareQuads_get :
    ∀ (sws : List JVal) (qs : List (String × String × String × String)),
      softwareQuads sws = some qs →
      ∀ (i : Nat) (sw : JVal), sws[i]? = some sw →
        ∃ q, qs[i]? = some q ∧ entryQuad sw = some q := by
  intro sws
  induction sws with
  | nil => intro qs h i sw hi; simp at hi
  | cons sw0 rest ih =>
    intro qs h i sw hi
    simp only [softwareQuads] at h
    cases hq : entryQuad sw0 with
    | none => rw [hq] at h; cases h
    | some q0 =>
      rw [hq] at h
      cases hrest : softwareQuads rest with
      | none => rw [hrest] at h; cases h
      | some qs' =>
        rw [hrest] at h
        simp only [Option.some.injEq] at h
        subst h
        cases i with
        | zero =>
          simp only [List.getElem?_cons_zero, Option.some.injEq] at hi
          subst hi
          exact ⟨q0, by simp, hq⟩
        | succ j =>
          simp only [List.getElem?_cons_succ] at hi ⊢
          exact ih qs' hrest j sw hi

theorem softwareLists_of_quads (sws : List JVal)
    (qs : List (String × String × String × String)) (h : softwareQuads sws = some qs) :
    softwareLists (.list sws) =
      some (qs.map (·.1), qs.map (·.2.1), qs.map (·.2.2.1), qs.map (·.2.2.2)) := by
  simp only [softwareLists, h, Option.map_some']

theorem flatten_vuln_software (kvs : List (String × JVal)) (fr : Row)
    (h : flatten_vuln (.obj kvs) = some fr) :
    ∃ ns vs fs ps,
      softwareLists (pyLookupD kvs "software" (.list [])) = some (ns, vs, fs, ps) ∧
      rowLookup fr "vuln_software_names" = some (joinCS ns) ∧
      rowLookup fr "vuln_software_versions" = some (joinCS vs) ∧
      rowLookup fr "vuln_software_fixVersions" = some (joinCS fs) ∧
      rowLookup fr "vuln_software_packagePaths" = some (joinCS ps) := by
  simp only [flatten_vuln] at h
  cases hsl : softwareLists (pyLookupD kvs "software" (.list [])) with
  | none => rw [hsl] at h; cases h
  | some quad =>
    obtain ⟨ns, vs, fs, ps⟩ := quad
    rw [hsl] at h
    simp only [Option.some.injEq] at h
    subst h
    exact ⟨ns, vs, fs, ps, rfl, by simp [rowLookup], by simp [rowLookup],
      by simp [rowLookup], by simp [rowLookup]⟩

/-- C8: the four software columns come from four independently accumulated
lists with exactly one slot per software entry (a missing field
contributing an empty slot, the display name falling back from `name` to
`software` when `name` is absent), joined with `", "`; a finding whose
`software` field is absent or not a list gets `""` in all four columns. -/
theorem C8_software_columns :
    (∀ (sws : List JVal) (ns vs fs ps : List String),
       softwareLists (.list sws) = some (ns, vs, fs, ps) →
       ns.length = sws.length ∧ vs.length = sws.length ∧
       fs.length = sws.length ∧ ps.length = sws.length) ∧
    (∀ (sws : List JVal) (ns vs fs ps : List String) (i : Nat)
       (skvs : List (String × JVal)),
       softwareLists (.list sws) = some (ns, vs, fs, ps) →
       sws[i]? = some (.obj skvs) →
       ns[i]? = some (sanitize_cell (if pyTruthy (pyLookupD skvs "name" .null)
         then pyLookupD skvs "name" .null else pyLookupD skvs "software" .null)) ∧
       vs[i]? = some (sanitize_cell (pyLookupD skvs "version" .null)) ∧
       fs[i]? = some (sanitize_cell (pyLookupD skvs "fixVersion" .null)) ∧
       ps[i]? = some (sanitize_cell (pyLookupD skvs "packagePath" .null)) ∧
       (pyLookup skvs "version" = none → vs[i]? = some "") ∧
       (pyLookup skvs "name" = none →
         ns[i]? = some (sanitize_cell (pyLookupD skvs "software" .null)))) ∧
    (∀ (kvs : List (String × JVal)) (fr : Row),
       flatten_vuln (.obj kvs) = some fr →
       ∃ ns vs fs ps,
         softwareLists (pyLookupD kvs "software" (.list [])) = some (ns, vs, fs, ps) ∧
         rowLookup fr "vuln_software_names" = some (joinCS ns) ∧
         rowLookup fr "vuln_software_versions" = some (joinCS vs) ∧
         rowLookup fr "vuln_software_fixVersions" = some (joinCS fs) ∧
         rowLookup fr "vuln_software_packagePaths" = some (joinCS ps)) ∧
    (∀ (kvs : List (String × JVal)) (fr : Row),
       flatten_vuln (.obj kvs) = some fr →
       (pyLookup kvs "software" = none ∨
        ∀ xs, pyLookup kvs "software" ≠ some (.list xs)) →
       rowLookup fr "vuln_software_names" = some "" ∧
       rowLookup fr "vuln_software_versions" = some "" ∧
       rowLookup fr "vuln_software_fixVersions" = some "" ∧
       rowLookup fr "vuln_software_packagePaths" = some "") := by
  have hmain : ∀ (sws : List JVal) (ns vs fs ps : List String),
      softwareLists (.list sws) = some (ns, vs, fs, ps) →
      ∃ qs, softwareQuads sws = some qs ∧ ns = qs.map (·.1) ∧ vs = qs.map (·.2.1) ∧
        fs = qs.map (·.2.2.1) ∧ ps = qs.map (·.2.2.2) := by
    intro sws ns vs fs ps h
    simp only [softwareLists] at h
    cases hq : softwareQuads sws with
    | none => rw [hq] at h; cases h
    | some qs =>
      rw [hq] at h
      simp only [Option.map_some', Option.some.injEq, Prod.mk.injEq] at h
      exact ⟨qs, rfl, h.1.symm, h.2.1.symm, h.2.2.1.symm, h.2.2.2.symm⟩
  refine ⟨?_, ?_, ?_, ?_⟩
  · intro sws ns vs fs ps h
    obtain ⟨qs, hq, rfl, rfl, rfl, rfl⟩ := hmain sws ns vs fs ps h
    have := softwareQuads_length sws qs hq
    simp [this]
  · intro sws ns vs fs ps i skvs h hi
    obtain ⟨qs, hq, rfl, rfl, rfl, rfl⟩ := hmain sws ns vs fs ps h
    obtain ⟨q, hqi, hentry⟩ := softwareQuads_get sws qs hq i (.obj skvs) hi
    simp only [entryQuad, Option.some.injEq] at hentry
    refine ⟨?_, ?_, ?_, ?_, ?_, ?_⟩
    · simp [List.getElem?_map, hqi, ← hentry]
    · simp [List.getElem?_map, hqi, ← hentry]
    · simp [List.getElem?_map, hqi, ← hentry]
    · simp [List.getElem?_map, hqi, ← hentry]
    · intro hnone
      have hd : pyLookupD skvs "version" .null = .null := by simp [pyLookupD, hnone]
      simp [List.getElem?_map, hqi, ← hentry, hd, sanitize_cell]
    · intro hnone
      have hd : pyLookupD skvs "name" .null = .null := by simp [pyLookupD, hnone]
      simp [List.getElem?_map, hqi, ← hentry, hd, pyTruthy]
  · intro kvs fr h
    exact flatten_vuln_software kvs fr h
  · intro kvs fr h habs
    have hsl : pyLookupD kvs "software" (.list []) = .list [] ∨
        (∃ w, pyLookupD kvs "software" (.list []) = w ∧
          softwareLists w = some ([], [], [], [])) := by
      rcases habs with habs | habs
      · left; simp [pyLookupD, habs]
      · cases hlk : pyLookup kvs "software" with
        | none => left; simp [pyLookupD, hlk]
        | some w =>
          right
          refine ⟨w, by simp [pyLookupD, hlk], ?_⟩
          cases w with
          | list xs => exact absurd hlk (habs xs)
          | null => rfl
          | bool b => rfl
          | num n => rfl
          | str s => rfl
          | obj m => rfl
    obtain ⟨ns, vs, fs, ps, hsw, h1, h2, h3, h4⟩ := flatten_vuln_software kvs fr h
    have hempty : ns = [] ∧ vs = [] ∧ fs = [] ∧ ps = [] := by
      rcases hsl with hsl | ⟨w, hw, hw2⟩
      · rw [hsl] at hsw
        have heq : softwareLists (.list []) = some ([], [], [], []) := rfl
        rw [heq] at hsw
        simp only [Option.some.injEq, Prod.mk.injEq] at hsw
        exact ⟨hsw.1.symm, hsw.2.1.symm, hsw.2.2.1.symm, hsw.2.2.2.symm⟩
      · rw [hw, hw2] at hsw
        simp only [Option.some.injEq, Prod.mk.injEq] at hsw
        exact ⟨hsw.1.symm, hsw.2.1.symm, hsw.2.2.1.symm, hsw.2.2.2.symm⟩
    obtain ⟨rfl, rfl, rfl, rfl⟩ := hempty
    exact ⟨h1, h2, h3, h4⟩

/-- A concrete two-entry software list: the first entry has a `name` and a
`version`, the second only a `software` display name. -/
def sw2 : List JVal :=
  [.obj [("name", .str "pkg"), ("version", .str "1.0")],
   .obj [("software", .str "alt")]]

/-- C8 witness: the software-column statement at the concrete two-entry
list (positional slots, `name` → `software` fallback, empty slots for
missing fields) and at a finding with no `software` field. -/
theorem C8_software_columns_witness :
    ((["pkg", "alt"] : List String).length = sw2.length ∧
     (["1.0", ""] : List String).length = sw2.length ∧
     (["", ""] : List String).length = sw2.length ∧
     (["", ""] : List String).length = sw2.length) ∧
    ((["pkg", "alt"] : List String)[1]? =
       some (sanitize_cell (if pyTruthy (pyLookupD [("software", .str "alt")] "name" .null)
         then pyLookupD [("software", .str "alt")] "name" .null
         else pyLookupD [("software", .str "alt")] "software" .null)) ∧
     (["1.0", ""] : List String)[1]? =
       some (sanitize_cell (pyLookupD [("software", .str "alt")] "version" .null)) ∧
     (["", ""] : List String)[1]? =
       some (sanitize_cell (pyLookupD [("software", .str "alt")] "fixVersion" .null)) ∧
     (["", ""] : List String)[1]? =
       some (sanitize_cell (pyLookupD [("software", .str "alt")] "packagePath" .null)) ∧
     (pyLookup [("software", .str "alt")] "version" = none →
       (["1.0", ""] : List String)[1]? = some "") ∧
     (pyLookup [("software", .str "alt")] "name" = none →
       (["pkg", "alt"] : List String)[1]? =
         some (sanitize_cell (pyLookupD [("software", .str "alt")] "software" .null)))) ∧
    (rowLookup [("vuln_qid", "1"), ("vuln_firstFound", ""), ("vuln_lastFound", ""),
        ("vuln_typeDetected", ""), ("vuln_scanTypes", ""), ("vuln_software_names", ""),
        ("vuln_software_versions", ""), ("vuln_software_fixVersions", ""),
        ("vuln_software_packagePaths", "")] "vuln_software_names" = some "" ∧
     rowLookup [("vuln_qid", "1"), ("vuln_firstFound", ""), ("vuln_lastFound", ""),
        ("vuln_typeDetected", ""), ("vuln_scanTypes", ""), ("vuln_software_names", ""),
        ("vuln_software_versions", ""), ("vuln_software_fixVersions", ""),
        ("vuln_software_packagePaths", "")] "vuln_software_versions" = some "" ∧
     rowLookup [("vuln_qid", "1"), ("vuln_firstFound", ""), ("vuln_lastFound", ""),
        ("vuln_typeDetected", ""), ("vuln_scanTypes", ""), ("vuln_software_names", ""),
        ("vuln_software_versions", ""), ("vuln_software_fixVersions", ""),
        ("vuln_software_packagePaths", "")] "vuln_software_fixVersions" = some "" ∧
     rowLookup [("vuln_qid", "1"), ("vuln_firstFound", ""), ("vuln_lastFound", ""),
        ("vuln_typeDetected", ""), ("vuln_scanTypes", ""), ("vuln_software_names", ""),
        ("vuln_software_versions", ""), ("vuln_software_fixVersions", ""),
        ("vuln_software_packagePaths", "")] "vuln_software_packagePaths" = some "") :=
  ⟨C8_software_columns.1 sw2 ["pkg", "alt"] ["1.0", ""] ["", ""] ["", ""] rfl,
   C8_software_columns.2.1 sw2 ["pkg", "alt"] ["1.0", ""] ["", ""] ["", ""] 1
     [("software", .str "alt")] rfl rfl,
   C8_software_columns.2.2.2 [("qid", .num 1)]
     [("vuln_qid", "1"), ("vuln_firstFound", ""), ("vuln_lastFound", ""),
      ("vuln_typeDetected", ""), ("vuln_scanTypes", ""), ("vuln_software_names", ""),
      ("vuln_software_versions", ""), ("vuln_software_fixVersions", ""),
      ("vuln_software_packagePaths", "")] rfl (Or.inl rfl)⟩

/-! ## Lemmas: sanitization fixed points (C10) -/

/-- A string free of newline and carriage-return characters. -/
def noNL (s : String) : Prop := ∀ c ∈ s.data, c ≠ '\n' ∧ c ≠ '\r'

/-- A string with no leading or trailing (Python) whitespace. -/
def trimmed (s : String) : Prop := stripL s.data = s.data

/-- The invariant C10 claims of every emitted cell: newline-free, fully
trimmed, not the literal `"None"` or `"null"`, and a fixed point of
`sanitize_cell` on strings. -/
def sanitizedCell (s : String) : Prop :=
  noNL s ∧ trimmed s ∧ s ≠ "None" ∧ s ≠ "null" ∧ sanitizeStr s = s

theorem mem_replNLCR (l : List Char) (c : Char) (hc : c ∈ replNLCR l) :
    c ≠ '\n' ∧ c ≠ '\r' := by
  simp only [replNLCR, replCR, replNL, List.map_map, List.mem_map] at hc
  obtain ⟨x, -, rfl⟩ := hc
  simp only [Function.comp]
  split_ifs <;> simp_all

theorem replNLCR_id (l : List Char) (h : ∀ c ∈ l, c ≠ '\n' ∧ c ≠ '\r') :
    replNLCR l = l := by
  induction l with
  | nil => rfl
  | cons x t ih =>
    have hx := h x (by simp)
    have ht := ih (fun c hc => h c (List.mem_cons_of_mem _ hc))
    simp only [replNLCR, replCR, replNL, List.map_cons] at ht ⊢
    rw [if_neg hx.1]
    by_cases hr : x = '\r'
    · exact absurd hr hx.2
    · rw [if_neg hr, ht]

theorem mem_lstripL (l : List Char) (c : Char) (h : c ∈ lstripL l) : c ∈ l :=
  (List.dropWhile_sublist pyWS).mem h

theorem mem_rstripL (l : List Char) (c : Char) (h : c ∈ rstripL l) : c ∈ l := by
  simp only [rstripL] at h
  rw [List.mem_reverse] at h
  have := mem_lstripL l.reverse c h
  rwa [List.mem_reverse] at this

theorem mem_stripL (l : List Char) (c : Char) (h : c ∈ stripL l) : c ∈ l :=
  mem_lstripL l c (mem_rstripL (lstripL l) c h)

theorem mem_lstripL_of_not_ws (l : List Char) (c : Char)
    (hc : c ∈ l) (hw : pyWS c = false) : c ∈ lstripL l := by
  induction l with
  | nil => cases hc
  | cons x t ih =>
    by_cases hx : pyWS x
    · simp only [lstripL, List.dropWhile_cons, hx, if_true] at ih ⊢
      rcases List.mem_cons.mp hc with h | h
      · subst h; rw [hw] at hx; cases hx
      · exact ih h
    · simp only [lstripL, List.dropWhile_cons, hx] at ih ⊢
      simpa using hc

theorem mem_rstripL_of_not_ws (l : List Char) (c : Char)
    (hc : c ∈ l) (hw : pyWS c = false) : c ∈ rstripL l := by
  simp only [rstripL]
  rw [List.mem_reverse]
  exact mem_lstripL_of_not_ws l.reverse c (List.mem_reverse.mpr hc) hw

theorem mem_stripL_of_not_ws (l : List Char) (c : Char)
    (hc : c ∈ l) (hw : pyWS c = false) : c ∈ stripL l :=
  mem_rstripL_of_not_ws (lstripL l) c (mem_lstripL_of_not_ws l c hc hw) hw

theorem lstripL_idem (l : List Char) : lstripL (lstripL l) = lstripL l := by
  induction l with
  | nil => rfl
  | cons x t ih =>
    by_cases hx : pyWS x
    · simp only [lstripL, List.dropWhile_cons, hx, if_true] at ih ⊢
      exact ih
    · simp only [lstripL, List.dropWhile_cons, hx, if_false]
      simp [hx]

theorem rstripL_idem (l : List Char) : rstripL (rstripL l) = rstripL l := by
  simp only [rstripL, List.reverse_reverse]
  rw [lstripL_idem]

theorem rstripL_cons (x : Char) (t : List Char) :
    rstripL (x :: t) =
      if rstripL t = [] then (if pyWS x then [] else [x]) else x :: rstripL t := by
  have happ : ∀ (l : List Char),
      List.dropWhile pyWS (l ++ [x]) =
        if List.dropWhile pyWS l = [] then (if pyWS x then [] else [x])
        else List.dropWhile pyWS l ++ [x] := by
    intro l
    induction l with
    | nil => cases hpx : pyWS x <;> simp [List.dropWhile, hpx]
    | cons y u ih =>
      by_cases hy : pyWS y
      · simp only [List.cons_append, List.dropWhile_cons, hy, if_true]
        exact ih
      · simp [List.dropWhile_cons, hy]
  have hrev : (x :: t).reverse = t.reverse ++ [x] := by simp
  show (lstripL (x :: t).reverse).reverse = _
  rw [hrev]
  show (List.dropWhile pyWS (t.reverse ++ [x])).reverse = _
  rw [happ]
  by_cases h0 : List.dropWhile pyWS t.reverse = []
  · rw [if_pos h0]
    have h1 : rstripL t = [] := by
      show (List.dropWhile pyWS t.reverse).reverse = []
      rw [h0]
      rfl
    rw [if_pos h1]
    cases hx : pyWS x <;> simp [hx]
  · rw [if_neg h0]
    have h1 : rstripL t ≠ [] := by
      show (List.dropWhile pyWS t.reverse).reverse ≠ []
      simp [h0]
    rw [if_neg h1]
    show (List.dropWhile pyWS t.reverse ++ [x]).reverse = x :: rstripL t
    simp [rstripL, lstripL]

theorem lstripL_rstripL_of_lstripped (m : List Char) (hm : lstripL m = m) :
    lstripL (rstripL m) = rstripL m := by
  cases m with
  | nil => rfl
  | cons x t =>
    have hx : pyWS x = false := by
      by_cases h : pyWS x
      · exfalso
        simp only [lstripL, List.dropWhile_cons, h, if_true] at hm
        have hlen := congrArg List.length hm
        have hle := (List.dropWhile_sublist (l := t) pyWS).length_le
        simp at hlen
        omega
      · simpa using h
    rw [rstripL_cons]
    by_cases h0 : rstripL t = []
    · rw [if_pos h0, hx]
      simp [lstripL, List.dropWhile_cons, hx]
    · rw [if_neg h0]
      simp [lstripL, List.dropWhile_cons, hx]

theorem stripL_idem (l : List Char) : stripL (stripL l) = stripL l := by
  simp only [stripL]
  rw [lstripL_rstripL_of_lstripped (lstripL l) (lstripL_idem l), rstripL_idem]

theorem string_data_append (s t : String) : (s ++ t).data = s.data ++ t.data := rfl

theorem stripRepl_good (l : List Char) :
    noNL (String.mk (stripL (replNLCR l))) ∧ trimmed (String.mk (stripL (replNLCR l))) := by
  constructor
  · intro c hc
    exact mem_replNLCR l c (mem_stripL _ c hc)
  · show stripL (stripL (replNLCR l)) = stripL (replNLCR l)
    exact stripL_idem _

theorem sanitizeStr_good (s : String) : noNL (sanitizeStr s) ∧ trimmed (sanitizeStr s) := by
  unfold sanitizeStr
  split_ifs with h
  · exact ⟨(by intro c hc; cases hc), rfl⟩
  · exact stripRepl_good s.data

theorem sanitize_cell_good (v : JVal) : noNL (sanitize_cell v) ∧ trimmed (sanitize_cell v) := by
  cases v with
  | null => exact ⟨(by intro c hc; cases hc), rfl⟩
  | str s => exact sanitizeStr_good s
  | bool b => exact stripRepl_good _
  | num n => exact stripRepl_good _
  | list xs =>
    cases xs with
    | nil => exact ⟨(by intro c hc; cases hc), rfl⟩
    | cons x t => exact stripRepl_good _
  | obj kvs =>
    cases kvs with
    | nil => exact ⟨(by intro c hc; cases hc), rfl⟩
    | cons kv t => exact stripRepl_good _

theorem sanitizeStr_of_good (s : String) (h1 : noNL s) (h2 : trimmed s) :
    sanitizeStr s = if s = "None" ∨ s = "null" ∨ s = "" then "" else s := by
  unfold sanitizeStr
  split_ifs with h
  · rfl
  · rw [replNLCR_id s.data h1, h2]

theorem sanitizedCell_empty : sanitizedCell "" :=
  ⟨(by intro c hc; cases hc), rfl, (by decide), (by decide), rfl⟩

theorem sanitizedCell_of (s : String) (h1 : noNL s) (h2 : trimmed s)
    (h3 : s ≠ "None") (h4 : s ≠ "null") : sanitizedCell s := by
  refine ⟨h1, h2, h3, h4, ?_⟩
  rw [sanitizeStr_of_good s h1 h2]
  by_cases h : s = ""
  · subst h; simp
  · simp [h3, h4, h]

theorem fixed_sanitize_of_good (s : String) (h1 : noNL s) (h2 : trimmed s) :
    sanitizedCell (sanitizeStr s) := by
  rw [sanitizeStr_of_good s h1 h2]
  split_ifs with h
  · exact sanitizedCell_empty
  · push_neg at h
    exact sanitizedCell_of s h1 h2 h.1 h.2.1

theorem fixed_sanitize_sanitize_cell (v : JVal) :
    sanitizedCell (sanitizeStr (sanitize_cell v)) :=
  fixed_sanitize_of_good _ (sanitize_cell_good v).1 (sanitize_cell_good v).2

theorem noNL_sep : noNL ", " := by
  intro c hc
  have hc2 : c = ',' ∨ c = ' ' := by simpa using hc
  rcases hc2 with rfl | rfl <;> exact ⟨by decide, by decide⟩

theorem noNL_append (a b : String) (ha : noNL a) (hb : noNL b) : noNL (a ++ b) := by
  intro c hc
  rw [string_data_append] at hc
  rcases List.mem_append.mp hc with h | h
  · exact ha c h
  · exact hb c h

theorem joinCS_noNL :
    ∀ (pieces : List String), (∀ p ∈ pieces, noNL p) → noNL (joinCS pieces)
  | [], _ => by intro c hc; cases hc
  | [p], h => by
    have := h p (by simp)
    simpa [joinCS] using this
  | p :: q :: rest, h => by
    show noNL (p ++ ", " ++ joinCS (q :: rest))
    exact noNL_append _ _
      (noNL_append p ", " (h p (by simp)) noNL_sep)
      (joinCS_noNL (q :: rest) (fun x hx => h x (List.mem_cons_of_mem _ hx)))

theorem comma_mem_joinCS (p q : String) (rest : List String) :
    ',' ∈ (joinCS (p :: q :: rest)).data := by
  show ',' ∈ (p ++ ", " ++ joinCS (q :: rest)).data
  rw [string_data_append, string_data_append]
  simp only [List.append_assoc, List.mem_append]
  right
  left
  decide

theorem fixed_sanitize_joinCS (pieces : List String)
    (h : ∀ p ∈ pieces, noNL p ∧ trimmed p) :
    sanitizedCell (sanitizeStr (joinCS pieces)) := by
  match pieces with
  | [] =>
    show sanitizedCell (sanitizeStr "")
    exact sanitizedCell_empty
  | [p] =>
    exact fixed_sanitize_of_good p (h p (by simp)).1 (h p (by simp)).2
  | p :: q :: rest =>
    have hJ : noNL (joinCS (p :: q :: rest)) :=
      joinCS_noNL _ (fun x hx => (h x hx).1)
    by_cases hlit : joinCS (p :: q :: rest) = "None" ∨
        joinCS (p :: q :: rest) = "null" ∨ joinCS (p :: q :: rest) = ""
    · have hz : sanitizeStr (joinCS (p :: q :: rest)) = "" := by
        unfold sanitizeStr
        rw [if_pos hlit]
      rw [hz]
      exact sanitizedCell_empty
    · have hstr : sanitizeStr (joinCS (p :: q :: rest)) =
          String.mk (stripL (joinCS (p :: q :: rest)).data) := by
        unfold sanitizeStr
        rw [if_neg hlit, replNLCR_id _ hJ]
      rw [hstr]
      have hcomma : ',' ∈ stripL (joinCS (p :: q :: rest)).data :=
        mem_stripL_of_not_ws _ _ (comma_mem_joinCS p q rest) (by decide)
      refine sanitizedCell_of _ ?_ ?_ ?_ ?_
      · intro c hc
        exact hJ c (mem_stripL _ c hc)
      · show stripL (stripL (joinCS (p :: q :: rest)).data) = _
        exact stripL_idem _
      · intro heq
        have hdata : stripL (joinCS (p :: q :: rest)).data = "None".data :=
          congrArg String.data heq
        rw [hdata] at hcomma
        exact absurd hcomma (by decide)
      · intro heq
        have hdata : stripL (joinCS (p :: q :: rest)).data = "null".data :=
          congrArg String.data heq
        rw [hdata] at hcomma
        exact absurd hcomma (by decide)

theorem softwareQuads_good :
    ∀ (sws : List JVal) (qs : List (String × String × String × String)),
      softwareQuads sws = some qs →
      ∀ q ∈ qs, (noNL q.1 ∧ trimmed q.1) ∧ (noNL q.2.1 ∧ trimmed q.2.1) ∧
        (noNL q.2.2.1 ∧ trimmed q.2.2.1) ∧ (noNL q.2.2.2 ∧ trimmed q.2.2.2) := by
  intro sws
  induction sws with
  | nil =>
    intro qs h q hq
    simp only [softwareQuads, Option.some.injEq] at h
    subst h
    cases hq
  | cons sw rest ih =>
    intro qs h q hq
    simp only [softwareQuads] at h
    cases hq0 : entryQuad sw with
    | none => rw [hq0] at h; cases h
    | some q0 =>
      rw [hq0] at h
      cases hrest : softwareQuads rest with
      | none => rw [hrest] at h; cases h
      | some qs' =>
        rw [hrest] at h
        simp only [Option.some.injEq] at h
        subst h
        rcases List.mem_cons.mp hq with rfl | hq2
        · cases sw with
          | obj skvs =>
            simp only [entryQuad, Option.some.injEq] at hq0
            rw [← hq0]
            exact ⟨sanitize_cell_good _, sanitize_cell_good _,
              sanitize_cell_good _, sanitize_cell_good _⟩
          | null => cases hq0
          | bool b => cases hq0
          | num n => cases hq0
          | str s => cases hq0
          | list l => cases hq0
        · exact ih qs' hrest q hq2

theorem softwareLists_good (swv : JVal) (ns vs fs ps : List String)
    (h : softwareLists swv = some (ns, vs, fs, ps)) :
    (∀ x ∈ ns, noNL x ∧ trimmed x) ∧ (∀ x ∈ vs, noNL x ∧ trimmed x) ∧
    (∀ x ∈ fs, noNL x ∧ trimmed x) ∧ (∀ x ∈ ps, noNL x ∧ trimmed x) := by
  cases swv with
  | list sws =>
    simp only [softwareLists] at h
    cases hq : softwareQuads sws with
    | none => rw [hq] at h; cases h
    | some qs =>
      rw [hq] at h
      simp only [Option.map_some', Option.some.injEq, Prod.mk.injEq] at h
      obtain ⟨h1, h2, h3, h4⟩ := h
      subst h1
      subst h2
      subst h3
      subst h4
      refine ⟨?_, ?_, ?_, ?_⟩
      · intro x hx
        obtain ⟨q, hq2, rfl⟩ := List.mem_map.mp hx
        exact (softwareQuads_good sws qs hq q hq2).1
      · intro x hx
        obtain ⟨q, hq2, rfl⟩ := List.mem_map.mp hx
        exact (softwareQuads_good sws qs hq q hq2).2.1
      · intro x hx
        obtain ⟨q, hq2, rfl⟩ := List.mem_map.mp hx
        exact (softwareQuads_good sws qs hq q hq2).2.2.1
      · intro x hx
        obtain ⟨q, hq2, rfl⟩ := List.mem_map.mp hx
        exact (softwareQuads_good sws qs hq q hq2).2.2.2
  | null =>
    have h' : some (([] : List String), ([] : List String), ([] : List String),
        ([] : List String)) = some (ns, vs, fs, ps) := h
    simp only [Option.some.injEq, Prod.mk.injEq] at h'
    obtain ⟨h1, h2, h3, h4⟩ := h'
    subst h1; subst h2; subst h3; subst h4
    exact ⟨(by intro x hx; cases hx), (by intro x hx; cases hx),
      (by intro x hx; cases hx), (by intro x hx; cases hx)⟩
  | bool b =>
    have h' : some (([] : List String), ([] : List String), ([] : List String),
        ([] : List String)) = some (ns, vs, fs, ps) := h
    simp only [Option.some.injEq, Prod.mk.injEq] at h'
    obtain ⟨h1, h2, h3, h4⟩ := h'
    subst h1; subst h2; subst h3; subst h4
    exact ⟨(by intro x hx; cases hx), (by intro x hx; cases hx),
      (by intro x hx; cases hx), (by intro x hx; cases hx)⟩
  | num n =>
    have h' : some (([] : List String), ([] : List String), ([] : List String),
        ([] : List String)) = some (ns, vs, fs, ps) := h
    simp only [Option.some.injEq, Prod.mk.injEq] at h'
    obtain ⟨h1, h2, h3, h4⟩ := h'
    subst h1; subst h2; subst h3; subst h4
    exact ⟨(by intro x hx; cases hx), (by intro x hx; cases hx),
      (by intro x hx; cases hx), (by intro x hx; cases hx)⟩
  | str s =>
    have h' : some (([] : List String), ([] : List String), ([] : List String),
        ([] : List String)) = some (ns, vs, fs, ps) := h
    simp only [Option.some.injEq, Prod.mk.injEq] at h'
    obtain ⟨h1, h2, h3, h4⟩ := h'
    subst h1; subst h2; subst h3; subst h4
    exact ⟨(by intro x hx; cases hx), (by intro x hx; cases hx),
      (by intro x hx; cases hx), (by intro x hx; cases hx)⟩
  | obj m =>
    have h' : some (([] : List String), ([] : List String), ([] : List String),
        ([] : List String)) = some (ns, vs, fs, ps) := h
    simp only [Option.some.injEq, Prod.mk.injEq] at h'
    obtain ⟨h1, h2, h3, h4⟩ := h'
    subst h1; subst h2; subst h3; subst h4
    exact ⟨(by intro x hx; cases hx), (by intro x hx; cases hx),
      (by intro x hx; cases hx), (by intro x hx; cases hx)⟩

theorem flatten_vuln_values (v : JVal) (fr : Row) (h : flatten_vuln v = some fr) :
    ∀ kv ∈ fr, sanitizedCell (sanitizeStr kv.2) := by
  cases v with
  | obj kvs =>
    simp only [flatten_vuln] at h
    cases hsl : softwareLists (pyLookupD kvs "software" (.list [])) with
    | none => rw [hsl] at h; cases h
    | some quad =>
      obtain ⟨ns, vs, fs, ps⟩ := quad
      rw [hsl] at h
      simp only [Option.some.injEq] at h
      subst h
      obtain ⟨hns, hvs, hfs, hps⟩ := softwareLists_good _ ns vs fs ps hsl
      intro kv hkv
      simp only [List.mem_cons, List.not_mem_nil, or_false] at hkv
      rcases hkv with rfl | rfl | rfl | rfl | rfl | rfl | rfl | rfl | rfl
      · exact fixed_sanitize_sanitize_cell _
      · exact fixed_sanitize_sanitize_cell _
      · exact fixed_sanitize_sanitize_cell _
      · exact fixed_sanitize_sanitize_cell _
      · dsimp only
        cases hscan : pyLookupD kvs "scanType" (.list []) with
        | list xs =>
          refine fixed_sanitize_joinCS _ ?_
          intro p hp
          obtain ⟨hp1, -⟩ := List.mem_filter.mp hp
          obtain ⟨x, -, rfl⟩ := List.mem_map.mp hp1
          exact sanitize_cell_good x
        | null => exact fixed_sanitize_sanitize_cell JVal.null
        | bool b => exact fixed_sanitize_sanitize_cell (JVal.bool b)
        | num n => exact fixed_sanitize_sanitize_cell (JVal.num n)
        | str s => exact fixed_sanitize_sanitize_cell (JVal.str s)
        | obj m => exact fixed_sanitize_sanitize_cell (JVal.obj m)
      · exact fixed_sanitize_joinCS ns hns
      · exact fixed_sanitize_joinCS vs hvs
      · exact fixed_sanitize_joinCS fs hfs
      · exact fixed_sanitize_joinCS ps hps
  | null => cases h
  | bool b => cases h
  | num n => cases h
  | str s => cases h
  | list l => cases h

theorem mem_base (cols : List String) (ctr : JVal) (kv : String × String)
    (h : kv ∈ build_container_base cols ctr) :
    ∃ c, kv.2 = sanitizeStr (get_nested_value ctr c) := by
  simp only [build_container_base] at h
  rcases mem_foldSet (fun c => sanitizeStr (get_nested_value ctr c))
      (baseContainerColumns cols) [] kv h with h2 | ⟨c, -, h2⟩
  · cases h2
  · exact ⟨c, congrArg Prod.snd h2⟩

/-- C10: every cell of every row the flattener emits is a fixed point of
sanitization: newline- and carriage-return-free, with no leading or
trailing whitespace, never the literal `"None"` or `"null"`, and
sanitizing it once more returns it unchanged. -/
theorem C10_cells_sanitized (cols : List String) (container : JVal) (rows : List Row)
    (h : expand_container_to_rows cols container = some rows) :
    ∀ r ∈ rows, ∀ kv ∈ r, sanitizedCell kv.2 := by
  cases container with
  | obj kvs =>
    intro r hr kv hkv
    rcases expand_row_shape cols kvs rows h r hr with ⟨fr, ⟨v, hfr⟩, hrr⟩ | hrr
    · subst hrr
      obtain ⟨v', hv', hkv2⟩ := mem_finalizeRow _ kv hkv
      rw [hkv2]
      rcases mem_fillCols cols _ _ hv' with h2 | h2
      · rcases mem_rowUpdate fr _ _ h2 with h3 | h3
        · obtain ⟨c, hc⟩ := mem_base cols (.obj kvs) _ h3
          simp only at hc
          rw [hc]
          exact fixed_sanitize_of_good _ (sanitizeStr_good _).1 (sanitizeStr_good _).2
        · exact flatten_vuln_values v fr hfr (kv.1, v') h3
      · simp only at h2
        rw [h2]
        exact sanitizedCell_empty
    · subst hrr
      obtain ⟨v', hv', hkv2⟩ := mem_finalizeRow _ kv hkv
      rw [hkv2]
      rcases mem_fillCols cols _ _ hv' with h2 | h2
      · obtain ⟨c, hc⟩ := mem_base cols (.obj kvs) _ h2
        simp only at hc
        rw [hc]
        exact fixed_sanitize_of_good _ (sanitizeStr_good _).1 (sanitizeStr_good _).2
      · simp only at h2
        rw [h2]
        exact sanitizedCell_empty
  | null => cases h
  | bool b => cases h
  | num n => cases h
  | str s => cases h
  | list l => cases h

/-- C10 witness: the fixed-point property applied to the cells of a
record whose `name` stringifies to `"  None "` (which reaches the output
as `""`) and of one with embedded newlines and padding. -/
theorem C10_cells_sanitized_witness :
    sanitizedCell "" ∧ sanitizedCell "x y" ∧
    expand_container_to_rows ["name"] (.obj [("name", .str "  None ")]) =
      some [[("name", "")]] ∧
    expand_container_to_rows ["name"] (.obj [("name", .str " x\ny ")]) =
      some [[("name", "x y")]] :=
  ⟨C10_cells_sanitized ["name"] (.obj [("name", .str "  None ")]) [[("name", "")]]
     rfl [("name", "")] (by simp) ("name", "") (by simp),
   C10_cells_sanitized ["name"] (.obj [("name", .str " x\ny ")]) [[("name", "x y")]]
     rfl [("name", "x y")] (by simp) ("name", "x y") (by simp),
   rfl, rfl⟩

/-! ## Lemmas: filename round-trip and idempotence (C2) -/

theorem digitChar_isDigit (k : Nat) (h : k < 10) : isDigitC (digitChar k) = true := by
  interval_cases k <;> decide

theorem digitChar_val (k : Nat) (h : k < 10) : (digitChar k).toNat - 48 = k := by
  interval_cases k <;> decide

theorem isDigitC_ne (c : Char) (h : isDigitC c = true) :
    c ≠ '.' ∧ c ≠ '-' ∧ pyWS c = false := by
  refine ⟨?_, ?_, ?_⟩
  · intro heq; subst heq; cases h
  · intro heq; subst heq; cases h
  · cases hpw : pyWS c
    · rfl
    · exfalso
      simp only [pyWS, Bool.or_eq_true, decide_eq_true_eq] at hpw
      rcases hpw with ((((rfl | rfl) | rfl) | rfl) | rfl) | rfl <;> cases h

theorem natToDigitsAux_zero (fuel : Nat) : natToDigitsAux fuel 0 = [] := by
  cases fuel <;> rfl

theorem natToDigitsAux_digits :
    ∀ (fuel n : Nat) (c : Char), c ∈ natToDigitsAux fuel n → isDigitC c = true := by
  intro fuel
  induction fuel with
  | zero => intro n c hc; cases hc
  | succ f ih =>
    intro n c hc
    by_cases hn : n = 0
    · subst hn; rw [natToDigitsAux_zero] at hc; cases hc
    · simp only [natToDigitsAux, if_neg hn] at hc
      rcases List.mem_append.mp hc with h | h
      · exact ih _ c h
      · simp only [List.mem_singleton] at h
        subst h
        exact digitChar_isDigit _ (Nat.mod_lt n (by norm_num))

theorem digVal_append_singleton (l : List Char) (c : Char) :
    digVal (l ++ [c]) = digVal l * 10 + (c.toNat - 48) := by
  simp [digVal, List.foldl_append]

theorem digVal_natToDigitsAux :
    ∀ (fuel : Nat), ∀ (n : Nat), n ≤ fuel → digVal (natToDigitsAux fuel n) = n := by
  intro fuel
  induction fuel using Nat.strong_induction_on with
  | _ fuel ih =>
    intro n hn
    by_cases h0 : n = 0
    · subst h0; rw [natToDigitsAux_zero]; rfl
    · obtain ⟨f, rfl⟩ : ∃ f, fuel = f + 1 := ⟨fuel - 1, by omega⟩
      simp only [natToDigitsAux, if_neg h0]
      rw [digVal_append_singleton]
      have hdiv : n / 10 ≤ f := by omega
      rw [ih f (by omega) (n / 10) hdiv]
      rw [digitChar_val _ (Nat.mod_lt n (by norm_num))]
      omega

theorem natToDigitsAux_length (k : Nat) :
    ∀ (fuel n : Nat), 10 ^ k ≤ n → n < 10 ^ (k + 1) → n ≤ fuel →
      (natToDigitsAux fuel n).length = k + 1 := by
  induction k with
  | zero =>
    intro fuel n h1 h2 hf
    simp only [pow_zero, pow_one] at h1 h2
    obtain ⟨f, rfl⟩ : ∃ f, fuel = f + 1 := ⟨fuel - 1, by omega⟩
    simp only [natToDigitsAux, if_neg (by omega : ¬ n = 0)]
    have hd : n / 10 = 0 := by omega
    rw [hd, natToDigitsAux_zero]
    rfl
  | succ k ih =>
    intro fuel n h1 h2 hf
    have h10 : 10 ≤ n := le_trans (by calc (10:Nat) = 10 ^ 1 := (pow_one 10).symm
                                         _ ≤ 10 ^ (k + 1) := Nat.pow_le_pow_right (by norm_num) (by omega)) h1
    obtain ⟨f, rfl⟩ : ∃ f, fuel = f + 1 := ⟨fuel - 1, by omega⟩
    simp only [natToDigitsAux, if_neg (by omega : ¬ n = 0)]
    rw [List.length_append]
    have hdiv1 : 10 ^ k ≤ n / 10 := by
      rw [Nat.le_div_iff_mul_le (by norm_num)]
      calc 10 ^ k * 10 = 10 ^ (k + 1) := by ring
        _ ≤ n := h1
    have hdiv2 : n / 10 < 10 ^ (k + 1) := by
      rw [Nat.div_lt_iff_lt_mul (by norm_num)]
      calc n < 10 ^ (k + 1 + 1) := h2
        _ = 10 ^ (k + 1) * 10 := by ring
    rw [ih f (n / 10) hdiv1 hdiv2 (by omega)]
    rfl

theorem natDigitsL_digits (n : Nat) (c : Char) (hc : c ∈ natDigitsL n) :
    isDigitC c = true := by
  simp only [natDigitsL] at hc
  split_ifs at hc with h
  · simp only [List.mem_singleton] at hc
    subst hc
    decide
  · exact natToDigitsAux_digits n n c hc

theorem natDigitsL_length4 (n : Nat) (h1 : 1000 ≤ n) (h2 : n ≤ 9999) :
    (natDigitsL n).length = 4 := by
  simp only [natDigitsL, if_neg (by omega : ¬ n = 0)]
  exact natToDigitsAux_length 3 n n (by norm_num; omega) (by norm_num; omega) le_rfl

theorem digVal_natDigitsL (n : Nat) : digVal (natDigitsL n) = n := by
  simp only [natDigitsL]
  split_ifs with h
  · subst h; rfl
  · exact digVal_natToDigitsAux n n le_rfl

theorem fmt2_digits (d : Nat) (c : Char) (hc : c ∈ fmt2 d) : isDigitC c = true := by
  simp only [fmt2] at hc
  split_ifs at hc with h
  · rcases List.mem_cons.mp hc with rfl | hc2
    · decide
    · simp only [List.mem_singleton] at hc2
      subst hc2
      exact digitChar_isDigit d h
  · exact natDigitsL_digits d c hc

theorem fmt2_length (d : Nat) (h : d < 100) : (fmt2 d).length = 2 := by
  simp only [fmt2]
  split_ifs with h10
  · rfl
  · simp only [natDigitsL, if_neg (by omega : ¬ d = 0)]
    exact natToDigitsAux_length 1 d d (by norm_num; omega) (by norm_num; omega) le_rfl

theorem digVal_fmt2 (d : Nat) (h : d < 100) : digVal (fmt2 d) = d := by
  simp only [fmt2]
  split_ifs with h10
  · show digVal ['0', digitChar d] = d
    simp only [digVal, List.foldl_cons, List.foldl_nil]
    have h0 : ('0' : Char).toNat - 48 = 0 := by decide
    rw [show (0 : Nat) * 10 + ('0'.toNat - 48) = 0 by decide]
    have := digitChar_val d h10
    omega
  · exact digVal_natDigitsL d

theorem takeDigits_full (ds : List Char) (rest : List Char)
    (hd : ∀ c ∈ ds, isDigitC c = true) :
    takeDigits ds.length (ds ++ rest) = (ds, rest) := by
  induction ds with
  | nil => rfl
  | cons c t ih =>
    simp only [List.length_cons, List.cons_append, takeDigits, hd c (by simp), if_true]
    have ih2 := ih (fun x hx => hd x (List.mem_cons_of_mem _ hx))
    rw [show t.append rest = t ++ rest from rfl, ih2]

theorem matchAbbrev_roundtrip (m : Nat) (h1 : 1 ≤ m) (h2 : m ≤ 12) (rest : List Char) :
    matchAbbrev (monthAbbrev m ++ rest) = some (m, rest) := by
  interval_cases m <;> rfl

theorem monthAbbrev_chars (m : Nat) (h1 : 1 ≤ m) (h2 : m ≤ 12) :
    ∀ c ∈ monthAbbrev m, c ≠ '.' ∧ c ≠ '-' := by
  interval_cases m <;> decide

theorem strptimeBDY_roundtrip (m day : Nat) (year : Nat)
    (hm1 : 1 ≤ m) (hm2 : m ≤ 12) (hd1 : 1 ≤ day) (hd100 : day < 100)
    (hdm : day ≤ daysInMonth (year : Int) m)
    (hy1 : 1000 ≤ year) (hy2 : year ≤ 9999) :
    strptimeBDY ((monthAbbrev m ++ fmt2 day) ++ natDigitsL year) = some (year, m, day) := by
  rw [List.append_assoc]
  simp only [strptimeBDY, matchAbbrev_roundtrip m hm1 hm2 (fmt2 day ++ natDigitsL year)]
  have hday := takeDigits_full (fmt2 day) (natDigitsL year) (fmt2_digits day)
  rw [fmt2_length day hd100] at hday
  rw [hday]
  have hne1 : fmt2 day ≠ [] := by
    intro h
    have := fmt2_length day hd100
    rw [h] at this
    cases this
  rw [if_neg hne1]
  have hyear := takeDigits_full (natDigitsL year) [] (natDigitsL_digits year)
  rw [natDigitsL_length4 year hy1 hy2, List.append_nil] at hyear
  rw [hyear]
  have hne2 : ¬ (natDigitsL year = [] ∨ ([] : List Char) ≠ []) := by
    push_neg
    constructor
    · intro h
      have := natDigitsL_length4 year hy1 hy2
      rw [h] at this
      cases this
    · rfl
  rw [if_neg hne2]
  rw [digVal_fmt2 day hd100, digVal_natDigitsL year]
  rw [if_pos ⟨by omega, hd1, hdm⟩]

theorem splitOn_no_sep (sep : Char) :
    ∀ (l : List Char), (∀ c ∈ l, c ≠ sep) → splitOnCharL sep l = [l] := by
  intro l
  induction l with
  | nil => intro _; rfl
  | cons c t ih =>
    intro h
    simp only [splitOnCharL]
    rw [if_neg (h c (by simp))]
    rw [ih (fun x hx => h x (List.mem_cons_of_mem _ hx))]

theorem splitOn_sep_append (sep : Char) :
    ∀ (A B : List Char), (∀ c ∈ A, c ≠ sep) →
      splitOnCharL sep (A ++ sep :: B) = A :: splitOnCharL sep B := by
  intro A
  induction A with
  | nil =>
    intro B _
    simp [splitOnCharL]
  | cons a t ih =>
    intro B h
    simp only [List.cons_append, splitOnCharL]
    rw [if_neg (h a (by simp))]
    rw [show t.append (sep :: B) = t ++ sep :: B from rfl]
    rw [ih B (fun x hx => h x (List.mem_cons_of_mem _ hx))]

theorem stemOf_ext (A : List Char) (hA : ∀ c ∈ A, c ≠ '.') :
    stemOf (A ++ ".json".data) = A := by
  unfold stemOf
  have hdot : hasChar '.' (A ++ ".json".data) = true := by
    simp only [hasChar, List.any_eq_true, decide_eq_true_eq]
    exact ⟨'.', by simp, rfl⟩
  rw [if_pos hdot]
  have hrev : (A ++ ".json".data).reverse = ['n', 'o', 's', 'j', '.'] ++ A.reverse := by
    rw [List.reverse_append]
    rfl
  rw [hrev]
  have hdw : List.dropWhile (fun c => !(c == '.'))
      (['n', 'o', 's', 'j', '.'] ++ A.reverse) = '.' :: A.reverse := by
    simp [List.dropWhile_cons]
  rw [hdw]
  simp

/-- A window boundary whose calendar month/day is printable as `%b%d` and
names a valid date of `year` (this is exactly what `parse_week_filename`
needs to re-parse the window's filename under the run's current year). -/
@[reducible] def okBoundary (year : Nat) (d : Int) : Prop :=
  1 ≤ (civil_from_days d).2.1 ∧ (civil_from_days d).2.1 ≤ 12 ∧
  1 ≤ (civil_from_days d).2.2 ∧
  (civil_from_days d).2.2 ≤ daysInMonth (year : Int) (civil_from_days d).2.1 ∧
  (civil_from_days d).2.2 < 100

theorem fmtBD_chars (year : Nat) (d : Int) (hok : okBoundary year d) :
    ∀ c ∈ fmtBD d, c ≠ '.' ∧ c ≠ '-' := by
  obtain ⟨hm1, hm2, hd1, hdm, hd100⟩ := hok
  intro c hc
  rcases List.mem_append.mp hc with h | h
  · exact monthAbbrev_chars _ hm1 hm2 c h
  · have := isDigitC_ne c (fmt2_digits _ c h)
    exact ⟨this.1, this.2.1⟩

theorem parse_weekFilename_roundtrip (year : Nat) (ws we : Int)
    (hy1 : 1000 ≤ year) (hy2 : year ≤ 9999)
    (hws : okBoundary year ws) (hwe : okBoundary year we) :
    parse_week_filename (weekFilename ws we) year =
      some (days_from_civil (year : Int) (civil_from_days ws).2.1 (civil_from_days ws).2.2,
            days_from_civil (year : Int) (civil_from_days we).2.1 (civil_from_days we).2.2) := by
  unfold parse_week_filename weekFilename
  have hdata : (String.mk (fmtBD ws ++ "-".data ++ fmtBD we ++ ".json".data)).data
      = (fmtBD ws ++ '-' :: fmtBD we) ++ ".json".data := by
    show fmtBD ws ++ "-".data ++ fmtBD we ++ ".json".data = _
    simp [List.append_assoc]
  rw [hdata]
  dsimp only
  have hAchars : ∀ c ∈ fmtBD ws ++ '-' :: fmtBD we, c ≠ '.' := by
    intro c hc
    rcases List.mem_append.mp hc with h | h
    · exact (fmtBD_chars year ws hws c h).1
    · rcases List.mem_cons.mp h with rfl | h2
      · decide
      · exact (fmtBD_chars year we hwe c h2).1
  rw [stemOf_ext _ hAchars]
  rw [splitOn_sep_append '-' (fmtBD ws) (fmtBD we)
    (fun c hc => (fmtBD_chars year ws hws c hc).2)]
  rw [splitOn_no_sep '-' (fmtBD we)
    (fun c hc => (fmtBD_chars year we hwe c hc).2)]
  obtain ⟨hm1, hm2, hd1, hdm, hd100⟩ := hws
  obtain ⟨hm1', hm2', hd1', hdm', hd100'⟩ := hwe
  have hws' : fmtBD ws = monthAbbrev (civil_from_days ws).2.1 ++ fmt2 (civil_from_days ws).2.2 := rfl
  have hwe' : fmtBD we = monthAbbrev (civil_from_days we).2.1 ++ fmt2 (civil_from_days we).2.2 := rfl
  rw [hws', hwe']
  dsimp only
  rw [strptimeBDY_roundtrip _ _ year hm1 hm2 hd1 hd100 hdm hy1 hy2,
    strptimeBDY_roundtrip _ _ year hm1' hm2' hd1' hd100' hdm' hy1 hy2]

theorem mem_existing_keys (l : List String) (year : Nat) (name : String) :
    name ∈ (get_existing_week_files l year).map (·.1) ↔
      name ∈ l ∧ ∃ p, parse_week_filename name year = some p := by
  induction l with
  | nil => simp [get_existing_week_files]
  | cons f t ih =>
    unfold get_existing_week_files at ih ⊢
    rw [List.filterMap_cons]
    cases hp : parse_week_filename f year with
    | none =>
      simp only [hp, Option.map_none']
      rw [ih]
      constructor
      · rintro ⟨h1, h2⟩
        exact ⟨List.mem_cons_of_mem _ h1, h2⟩
      · rintro ⟨h1, p, h2⟩
        rcases List.mem_cons.mp h1 with rfl | h1'
        · rw [hp] at h2; cases h2
        · exact ⟨h1', p, h2⟩
    | some q =>
      simp only [hp, Option.map_some', List.map_cons, List.mem_cons]
      rw [ih]
      constructor
      · rintro (rfl | ⟨h1, h2⟩)
        · exact ⟨Or.inl rfl, q, hp⟩
        · exact ⟨Or.inr h1, h2⟩
      · rintro ⟨rfl | h1', p, h2⟩
        · exact Or.inl rfl
        · exact Or.inr ⟨h1', p, h2⟩

/-- C2 (corrected): re-running the planner over an unchanged output
directory is idempotent PROVIDED every window boundary of the range is
re-parseable under the run's current year (month/day printable and naming
a valid, sub-100-day date of that year - `parse_week_filename` substitutes
`datetime.now().year`, so e.g. a `Feb29` boundary breaks this in a
non-leap current year, see the counterexample).  Under that proviso: a
window is fetched exactly when its canonical `%b%d-%b%d.json` filename is
not among the parsed filenames of the directory, and a second run over
the directory extended by the first run's fetched filenames fetches
nothing and counts zero new records. -/
theorem C2_skip_idempotence (dir : List String) (year : Nat) (s e : Int)
    (f1 : List String)
    (hy1 : 1000 ≤ year) (hy2 : year ≤ 9999)
    (hok : ∀ w ∈ daterange s e, okBoundary year w.1 ∧ okBoundary year w.2)
    (hrun : runFetchedFilenames dir year s e = some f1) :
    (∀ name, name ∈ f1 ↔
      ((∃ w ∈ daterange s e, weekFilename w.1 w.2 = name) ∧
       name ∉ (get_existing_week_files dir year).map (·.1))) ∧
    runFetchedFilenames (dir ++ f1) year s e = some [] ∧
    (∀ rc : String → Nat, runTotals rc (dir ++ f1) year s e = some 0) := by
  have hse : s < e := by
    by_contra hc
    unfold runFetchedFilenames generate_all_week_ranges at hrun
    rw [if_pos (not_lt.mp hc)] at hrun
    cases hrun
  have hgen : generate_all_week_ranges s e =
      some ((daterange s e).map (fun w => (w.1, w.2, weekFilename w.1 w.2))) := by
    unfold generate_all_week_ranges
    rw [if_neg (not_le.mpr hse)]
  have hf1 : f1 = (((daterange s e).map (fun w => (w.1, w.2, weekFilename w.1 w.2))).filter
      (fun w => !(((get_existing_week_files dir year).map (·.1)).contains w.2.2))).map
        (·.2.2) := by
    unfold runFetchedFilenames at hrun
    rw [hgen] at hrun
    simp only [Option.map_some'] at hrun
    exact (Option.some.inj hrun).symm
  have hmemf1 : ∀ name, name ∈ f1 ↔
      ((∃ w ∈ daterange s e, weekFilename w.1 w.2 = name) ∧
       name ∉ (get_existing_week_files dir year).map (·.1)) := by
    intro name
    rw [hf1]
    constructor
    · intro hmem
      obtain ⟨x, hx, rfl⟩ := List.mem_map.mp hmem
      obtain ⟨hx1, hx2⟩ := List.mem_filter.mp hx
      obtain ⟨w, hw, rfl⟩ := List.mem_map.mp hx1
      refine ⟨⟨w, hw, rfl⟩, ?_⟩
      intro hk
      rw [Bool.not_eq_true'] at hx2
      have helem : (((get_existing_week_files dir year).map (·.1)).contains
          ((w.1, w.2, weekFilename w.1 w.2)).2.2) = true := List.elem_iff.mpr hk
      rw [helem] at hx2
      cases hx2
    · rintro ⟨⟨w, hw, rfl⟩, hnot⟩
      refine List.mem_map.mpr ⟨(w.1, w.2, weekFilename w.1 w.2),
        List.mem_filter.mpr ⟨List.mem_map.mpr ⟨w, hw, rfl⟩, ?_⟩, rfl⟩
      rw [Bool.not_eq_true']
      by_contra hc
      rw [Bool.not_eq_false] at hc
      exact hnot (List.elem_iff.mp hc)
  have hkeys2 : ∀ w ∈ daterange s e,
      weekFilename w.1 w.2 ∈ (get_existing_week_files (dir ++ f1) year).map (·.1) := by
    intro w hw
    rw [mem_existing_keys]
    obtain ⟨hok1, hok2⟩ := hok w hw
    refine ⟨?_, _, parse_weekFilename_roundtrip year w.1 w.2 hy1 hy2 hok1 hok2⟩
    by_cases hmem : weekFilename w.1 w.2 ∈ (get_existing_week_files dir year).map (·.1)
    · exact List.mem_append.mpr (Or.inl ((mem_existing_keys dir year _).mp hmem).1)
    · exact List.mem_append.mpr (Or.inr ((hmemf1 _).mpr ⟨⟨w, hw, rfl⟩, hmem⟩))
  have hfilter2 : (((daterange s e).map (fun w => (w.1, w.2, weekFilename w.1 w.2))).filter
      (fun w => !(((get_existing_week_files (dir ++ f1) year).map (·.1)).contains
        w.2.2))) = [] := by
    rw [List.filter_eq_nil_iff]
    intro x hx
    simp only [List.mem_map] at hx
    obtain ⟨w, hw, rfl⟩ := hx
    have hcontains : (((get_existing_week_files (dir ++ f1) year).map (·.1)).contains
        (weekFilename w.1 w.2)) = true := List.elem_iff.mpr (hkeys2 w hw)
    intro hcon
    have hcon' : (!(((get_existing_week_files (dir ++ f1) year).map (·.1)).contains
        (weekFilename w.1 w.2))) = true := hcon
    rw [Bool.not_eq_true'] at hcon'
    rw [hcon'] at hcontains
    cases hcontains
  have hrun2 : runFetchedFilenames (dir ++ f1) year s e = some [] := by
    have hstep : runFetchedFilenames (dir ++ f1) year s e =
        some ((((daterange s e).map (fun w => (w.1, w.2, weekFilename w.1 w.2))).filter
          (fun w => !(((get_existing_week_files (dir ++ f1) year).map (·.1)).contains
            w.2.2))).map (·.2.2)) := by
      unfold runFetchedFilenames
      rw [hgen]
      rfl
    rw [hstep, hfilter2]
    rfl
  refine ⟨hmemf1, hrun2, fun rc => ?_⟩
  unfold runTotals
  rw [hrun2]
  rfl

/-- C2 counterexample: the claim as stated fails without the
current-year proviso.  `Feb22-Feb29.json` is the canonical filename of
the window 2024-02-22 .. 2024-02-29, and it is already present in the
output directory; yet a re-run in the (non-leap) current year 2025
re-fetches the window, because `parse_week_filename` parses `Feb29`
with `datetime.now().year = 2025` and Feb 29 2025 does not exist, so the
file is not recognised as materialized. -/
theorem C2_counterexample :
    weekFilename (days_from_civil 2024 2 22) (days_from_civil 2024 2 29) =
      "Feb22-Feb29.json" ∧
    runFetchedFilenames ["Feb22-Feb29.json"] 2025
        (days_from_civil 2024 2 22) (days_from_civil 2024 2 29) =
      some ["Feb22-Feb29.json"] ∧
    runFetchedFilenames ["Feb22-Feb29.json"] 2024
        (days_from_civil 2024 2 22) (days_from_civil 2024 2 29) =
      some [] := by
  refine ⟨rfl, rfl, rfl⟩

set_option maxRecDepth 8000 in
/-- Witness for C2: the two-window range 2024-01-01 .. 2024-01-15 run in
current year 2025 over an empty directory fetches both windows; the
second run over the directory holding their two filenames fetches
nothing and counts zero records. -/
theorem C2_skip_idempotence_witness :
    ((1000 : Nat) ≤ 2025 ∧ (2025 : Nat) ≤ 9999) ∧
    runFetchedFilenames [] 2025 (days_from_civil 2024 1 1) (days_from_civil 2024 1 15) =
      some ["Jan01-Jan08.json", "Jan08-Jan15.json"] ∧
    runFetchedFilenames ([] ++ ["Jan01-Jan08.json", "Jan08-Jan15.json"]) 2025
        (days_from_civil 2024 1 1) (days_from_civil 2024 1 15) = some [] ∧
    runTotals (fun _ => 7) ([] ++ ["Jan01-Jan08.json", "Jan08-Jan15.json"]) 2025
        (days_from_civil 2024 1 1) (days_from_civil 2024 1 15) = some 0 :=
  ⟨⟨by decide, by decide⟩, rfl,
    (C2_skip_idempotence [] 2025 (days_from_civil 2024 1 1) (days_from_civil 2024 1 15)
      ["Jan01-Jan08.json", "Jan08-Jan15.json"] (by decide) (by decide) (by decide)
      rfl).2.1,
    (C2_skip_idempotence [] 2025 (days_from_civil 2024 1 1) (days_from_civil 2024 1 15)
      ["Jan01-Jan08.json", "Jan08-Jan15.json"] (by decide) (by decide) (by decide)
      rfl).2.2 (fun _ => 7)⟩
